import Mathlib

/-!
Verification of the TrueTrend aggregation/scoring engine.

The Lean definitions below are a shallow embedding of the Python source
under `backend/app`:
* `services/fetchers/fetcher_manager.py` (merge, cache, normalization),
* `services/real_score.py` (objectivity weighting),
* `routers/trends.py` (lifecycle segmentation),
* `services/github_archive.py` (archive statistics and burst score).

Modelling conventions:
* Python dicts are insertion-ordered association lists (`dictSet` updates an
  existing key in place and appends a fresh key at the end, exactly the
  CPython 3.7+ dict semantics used by the source).
* Python `list.sort(key=..., reverse=True)` and `sorted(...)` are stable;
  they are modelled by the insertion sort `pySortDesc` / `pySortAsc`, which
  computes the same list as any stable sort.
* Python numbers are modelled by `ℚ` where the source only does field
  arithmetic, and by `ℝ` where it calls `math.log` / `math.log2`.
  Binary floating point rounding is not modelled.
* Python strings compare lexicographically by code point; this is the
  lexicographic order on `List Char` obtained from `String.toList`.
-/

namespace TrueTrend

/-! ## Association lists: the model of Python dicts -/
variable {κ : Type} {α : Type} [DecidableEq κ]

/-- Lookup in an insertion-ordered association list (Python `d[k]` / `k in d`). -/
def dictLookup (m : List (κ × α)) (k : κ) : Option α :=
  match m with
  | [] => none
  | (k', v) :: rest => if k' = k then some v else dictLookup rest k

/-- Assignment `d[k] = v` on an insertion-ordered association list: an existing
key is updated in place, a new key is appended at the end (CPython dict
semantics). -/
def dictSet (m : List (κ × α)) (k : κ) (v : α) : List (κ × α) :=
  match m with
  | [] => [(k, v)]
  | (k', v') :: rest => if k' = k then (k, v) :: rest else (k', v') :: dictSet rest k v

/-- First-occurrence deduplication: the order in which distinct values first
appear in a list.  This is the key order of a Python dict built by iterating
over the list. -/
def firstDedupAux (seen : List κ) : List κ → List κ
  | [] => []
  | x :: xs => if x ∈ seen then firstDedupAux seen xs else x :: firstDedupAux (x :: seen) xs

def firstDedup (l : List κ) : List κ := firstDedupAux [] l

/-! ## Stable sorting: the model of Python `sorted` / `list.sort`

`pyInsertK r key x acc` inserts `x` into the already-sorted `acc`, walking
past every element `y` with `r (key x) (key y)`.  Folding it over the input
from the left yields the unique stable sort for the order `r` on keys:
with `r = (· ≤ ·)` this is `list.sort(key=key, reverse=True)`, with
`r = (fun a b => b ≤ a)` it is ascending `sorted(lst, key=key)`. -/
variable {β : Type}

def pyInsertK (r : β → β → Prop) [DecidableRel r] (key : α → β) (x : α) :
    List α → List α
  | [] => [x]
  | y :: ys => if r (key x) (key y) then y :: pyInsertK r key x ys else x :: y :: ys

def pySortK (r : β → β → Prop) [DecidableRel r] (key : α → β) (l : List α) : List α :=
  l.foldl (fun acc x => pyInsertK r key x acc) []

/-- Python `list.sort(key=key, reverse=True)`: stable, descending by key. -/
def pySortDesc [LinearOrder β] (key : α → β) (l : List α) : List α :=
  pySortK (· ≤ ·) key l

/-- Python `sorted(lst, key=key)`: stable, ascending by key. -/
def pySortAsc [LinearOrder β] (key : α → β) (l : List α) : List α :=
  pySortK (fun a b => b ≤ a) key l

/-- `SortedK r key l`: every later element's key is `r`-below every earlier one
(for `r = (· ≤ ·)` this is "descending by key"). -/
def SortedK (r : β → β → Prop) (key : α → β) (l : List α) : Prop :=
  l.Pairwise (fun a b => r (key b) (key a))

/-! ## Keyword normalization (`FetcherManager._normalize_keyword`)

The source does `keyword.strip()`, then `re.sub(r'[^\w一-鿿]', '', ...)`,
then `.lower()`.  `pythonWordChar` models the Unicode word class `\w` of
Python `re` on `str`: it is exact on ASCII (letters, digits, underscore) and
on the listed non-ASCII blocks (CJK ideographs, Latin-1/extended letters,
Greek, Cyrillic, kana, Hangul); further letter blocks matched by `\w` are
outside the model.  `Char.toLower` models `str.lower` on ASCII; non-ASCII
case mappings are outside the model. -/
def wordCharNat (n : ℕ) : Bool :=
  (48 ≤ n && n ≤ 57) ||       -- ASCII digits
  (65 ≤ n && n ≤ 90) ||       -- ASCII upper-case letters
  (97 ≤ n && n ≤ 122) ||      -- ASCII lower-case letters
  (n == 95) ||                -- underscore
  (0x4e00 ≤ n && n ≤ 0x9fff) ||                              -- CJK ideographs
  (0xc0 ≤ n && n ≤ 0x24f && n != 0xd7 && n != 0xf7) ||       -- Latin-1/extended letters
  (0x391 ≤ n && n ≤ 0x3c9 && n != 0x3a2) ||                  -- Greek letters
  (0x400 ≤ n && n ≤ 0x4ff) ||                                -- Cyrillic
  (0x3041 ≤ n && n ≤ 0x3096) || (0x30a1 ≤ n && n ≤ 0x30fa) || -- kana
  (0xac00 ≤ n && n ≤ 0xd7a3)                                 -- Hangul syllables

def pythonWordChar (c : Char) : Bool :=
  wordCharNat c.toNat

/-- Python `str.strip()` on a character list: drop leading and trailing
whitespace. -/
def pyStrip (l : List Char) : List Char :=
  ((l.dropWhile Char.isWhitespace).reverse.dropWhile Char.isWhitespace).reverse

/-- `FetcherManager._normalize_keyword`: strip surrounding whitespace, drop
every character outside `[\w一-鿿]`, lower-case. -/
def normalizeKeyword (s : String) : String :=
  String.mk (((pyStrip s.toList).filter pythonWordChar).map Char.toLower)

/-! ## `FetcherManager.fetch_and_merge` -/
/-- One raw hotness item as produced by a platform adapter.  The per-source
`metadata` dict is carried opaquely as an association list. -/
structure RawItem where
  keyword : String
  raw_heat_score : ℚ
  timestamp : String
  metadata : List (String × String)
deriving DecidableEq, Repr

/-- The per-normalized-keyword accumulator built in the `keyword_map` loop of
`fetch_and_merge`. -/
structure MergeEntry where
  keyword : String
  platforms : List String
  raw_heat_scores : List (String × ℚ)
  total_raw_heat : ℚ
  first_seen : String
  metadata_by_platform : List (String × List (String × String))
deriving DecidableEq, Repr

/-- A merged output record of `fetch_and_merge`. -/
structure MergedTrend where
  keyword : String
  platforms : List String
  platform_count : ℕ
  raw_heat_score : ℚ
  heat_by_platform : List (String × ℚ)
  first_seen : String
  last_seen : String
  metadata : List (String × List (String × String))
deriving DecidableEq, Repr

/-- The fresh accumulator created when a normalized keyword is first seen
(`if normalized_keyword not in keyword_map`). -/
def freshEntry (item : RawItem) : MergeEntry :=
  { keyword := item.keyword
    platforms := []
    raw_heat_scores := []
    total_raw_heat := 0
    first_seen := item.timestamp
    metadata_by_platform := [] }

/-- The unconditional per-item update of the accumulator: record the platform
(if absent), overwrite the per-platform heat, add to the total, overwrite the
per-platform metadata. -/
def updateEntry (platform : String) (item : RawItem) (e : MergeEntry) : MergeEntry :=
  { e with
    platforms := if platform ∈ e.platforms then e.platforms else e.platforms ++ [platform]
    raw_heat_scores := dictSet e.raw_heat_scores platform item.raw_heat_score
    total_raw_heat := e.total_raw_heat + item.raw_heat_score
    metadata_by_platform := dictSet e.metadata_by_platform platform item.metadata }

/-- Processing of one `(platform, item)` pair of the nested loop in
`fetch_and_merge`. -/
def mergeStep (m : List (String × MergeEntry)) (pi : String × RawItem) :
    List (String × MergeEntry) :=
  let nk := normalizeKeyword pi.2.keyword
  dictSet m nk (updateEntry pi.1 pi.2 ((dictLookup m nk).getD (freshEntry pi.2)))

/-- The `for platform, items in all_data.items(): for item in items:` nest as
a flat list of `(platform, item)` pairs in iteration order. -/
def platformItemPairs (allData : List (String × List RawItem)) :
    List (String × RawItem) :=
  allData.flatMap (fun pd => pd.2.map (fun it => (pd.1, it)))

/-- The finished `keyword_map` of `fetch_and_merge`. -/
def buildKeywordMap (allData : List (String × List RawItem)) :
    List (String × MergeEntry) :=
  (platformItemPairs allData).foldl mergeStep []

/-- Conversion of an accumulator into the output record (`merged.append({...})`).
`now` is the `datetime.now().isoformat()` value used for `last_seen`. -/
def toMergedTrend (now : String) (e : MergeEntry) : MergedTrend :=
  { keyword := e.keyword
    platforms := e.platforms
    platform_count := e.platforms.length
    raw_heat_score := e.total_raw_heat
    heat_by_platform := e.raw_heat_scores
    first_seen := e.first_seen
    last_seen := now
    metadata := e.metadata_by_platform }

/-- The merged list before the final sort. -/
def mergedUnsorted (allData : List (String × List RawItem)) (now : String) :
    List MergedTrend :=
  (buildKeywordMap allData).map (fun kv => toMergedTrend now kv.2)

/-- `FetcherManager.fetch_and_merge`, given the per-platform adapter outputs
`allData` (the `all_data` dict in platform registration order) and the current
time `now`: merge same-normalized-keyword items, then
`merged.sort(key=lambda x: x["raw_heat_score"], reverse=True)`. -/
def fetch_and_merge (allData : List (String × List RawItem)) (now : String) :
    List MergedTrend :=
  pySortDesc MergedTrend.raw_heat_score (mergedUnsorted allData now)

/-- The normalized merge key of one `(platform, item)` pair. -/
def pairKey (pr : String × RawItem) : String × String :=
  (pr.1, normalizeKeyword pr.2.keyword)

/-- Unconditional per-entry invariant of the merge loop: the recorded platform
list of every accumulator is duplicate-free and non-empty. -/
def EntryInvA (m : List (String × MergeEntry)) : Prop :=
  ∀ kv ∈ m, (kv : String × MergeEntry).2.platforms.Nodup ∧ kv.2.platforms ≠ []

/-- Heat-sum invariant of the merge loop, relative to the already-processed
prefix `done` of the `(platform, item)` pair stream: every accumulator's
running total equals the sum of its per-platform heat dict, whose key set is
exactly the set of platforms already seen for that normalized keyword. -/
def EntryInvB (done : List (String × RawItem)) (m : List (String × MergeEntry)) : Prop :=
  (∀ nk e, dictLookup m nk = some e →
    e.total_raw_heat = (e.raw_heat_scores.map Prod.snd).sum ∧
    ∀ p, (dictLookup e.raw_heat_scores p).isSome = true ↔ (p, nk) ∈ done.map pairKey) ∧
  ∀ pr ∈ done, (dictLookup m (pairKey pr).2).isSome = true

/-- Adapter output for the C1 witness: one platform, one item. -/
def c1AllData : List (String × List RawItem) :=
  [("weibo", [{ keyword := "a", raw_heat_score := 5, timestamp := "t0", metadata := [] }])]

/-- The merged record `fetch_and_merge c1AllData "now"` produces. -/
def c1Trend : MergedTrend :=
  { keyword := "a", platforms := ["weibo"], platform_count := 1, raw_heat_score := 5
    heat_by_platform := [("weibo", 5)], first_seen := "t0", last_seen := "now"
    metadata := [("weibo", [])] }

/-! ## Lifecycle segmentation (`routers/trends.py`, `get_keyword_lifecycle`) -/
/-- One raw lifecycle sample (`{"timestamp": ..., "heat_score": ...}`). -/
structure LifeRaw where
  timestamp : String
  heat_score : ℚ
deriving DecidableEq, Repr

/-- `point["timestamp"][:10]`: the date key of a sample. -/
def dateOf (p : LifeRaw) : List Char :=
  p.timestamp.toList.take 10

/-- The `daily_heat` dict: heat summed per date, keys in first-seen order
(`if date not in daily_heat: daily_heat[date] = 0; daily_heat[date] += ...`). -/
def buildDailyHeat (l : List LifeRaw) : List (List Char × ℚ) :=
  l.foldl
    (fun m p => dictSet m (dateOf p) ((dictLookup m (dateOf p)).getD 0 + p.heat_score)) []

/-- `max(daily_heat.values())`.  The source only calls it on a non-empty dict
(it raises 404 earlier otherwise); `0` on `[]` is an unreachable default. -/
def maxQ : List ℚ → ℚ
  | [] => 0
  | x :: xs => xs.foldl max x

/-- `[d for d, h in daily_heat.items() if h == max_heat][0]`: the first date
in dict order whose heat is maximal. -/
def maxDate (m : List (List Char × ℚ)) : List Char :=
  ((m.find? (fun kv => kv.2 == maxQ (m.map Prod.snd))).map Prod.fst).getD []

/-- The phase branch chain of `get_keyword_lifecycle`, in source order.  The
source compares `i < len(sorted_dates) * 0.2` and `i > len(sorted_dates) * 0.8`
on floats; for the list lengths reachable here those comparisons of an integer
against `n * 0.2` / `n * 0.8` coincide with the exact rational comparisons
used in this model. -/
def lifecyclePhase (n i : ℕ) (d maxD : List Char) : String :=
  if (i : ℚ) < (n : ℚ) * 0.2 then "birth"
  else if d < maxD then "rise"
  else if d = maxD then "peak"
  else if (i : ℚ) > (n : ℚ) * 0.8 then "death"
  else "decline"

/-- The response data of `get_keyword_lifecycle`.  Dates are kept as raw date
strings; the source parses them back with `datetime.fromisoformat` for the
response model. -/
structure LifecycleData where
  data_points : List (List Char × ℚ × String)
  birth_date : List Char
  peak_date : List Char
  death_date : Option (List Char)
  total_days : ℕ
deriving DecidableEq, Repr

/-- `get_keyword_lifecycle` after the keyword lookup: `none` models the 404
raised on an empty `lifecycle_raw`. -/
def getKeywordLifecycle (l : List LifeRaw) : Option LifecycleData :=
  if l = [] then none
  else
    let m := buildDailyHeat l
    let sortedDates := pySortAsc id (m.map Prod.fst)
    let md := maxDate m
    some
      { data_points := sortedDates.enum.map (fun ip =>
          (ip.2, (dictLookup m ip.2).getD 0, lifecyclePhase sortedDates.length ip.1 ip.2 md))
        birth_date := sortedDates.headD []
        peak_date := md
        death_date :=
          if 1 < sortedDates.length then some (sortedDates.getLast?.getD []) else none
        total_days := sortedDates.length }

/-- The phase rule exactly as the claim states it: branch 1 compares against
`floor(0.2·N)` and branch 4 against `floor(0.8·N)`. -/
def specPhaseRule (n i : ℕ) (d maxD : List Char) : String :=
  if i < Nat.floor ((0.2 : ℚ) * n) then "birth"
  else if d < maxD then "rise"
  else if d = maxD then "peak"
  else if Nat.floor ((0.8 : ℚ) * n) < i then "death"
  else "decline"

/-- The amended phase rule: branch 1 without the floor (the exact comparison
`i < 0.2·N` that the code performs); branches 2-5 as the claim states them,
including the floor form of branch 4, which does agree with the code. -/
def amendedPhaseRule (n i : ℕ) (d maxD : List Char) : String :=
  if (i : ℚ) < (0.2 : ℚ) * n then "birth"
  else if d < maxD then "rise"
  else if d = maxD then "peak"
  else if Nat.floor ((0.8 : ℚ) * n) < i then "death"
  else "decline"

/-- The index of the first sample with maximal heat. -/
def maxIdx (l : List LifeRaw) : ℕ :=
  l.findIdx (fun p => p.heat_score == maxQ (l.map LifeRaw.heat_score))

/-- The date of the first sample with maximal heat (= the earliest such date
when the input is sorted by date). -/
def lifecycleMaxDate (l : List LifeRaw) : List Char :=
  ((l.find? (fun p => p.heat_score == maxQ (l.map LifeRaw.heat_score))).map dateOf).getD []

/-- The claim's own boundary example: 10 ascending daily points with the
maximum at index 3. -/
def c4Pts10 : List LifeRaw :=
  [{ timestamp := "2024-01-01", heat_score := 1 }, { timestamp := "2024-01-02", heat_score := 2 },
   { timestamp := "2024-01-03", heat_score := 3 }, { timestamp := "2024-01-04", heat_score := 9 },
   { timestamp := "2024-01-05", heat_score := 5 }, { timestamp := "2024-01-06", heat_score := 5 },
   { timestamp := "2024-01-07", heat_score := 4 }, { timestamp := "2024-01-08", heat_score := 3 },
   { timestamp := "2024-01-09", heat_score := 2 }, { timestamp := "2024-01-10", heat_score := 1 }]

/-- Eleven ascending daily points with the maximum at the end. -/
def c4Pts11 : List LifeRaw :=
  [{ timestamp := "2024-01-01", heat_score := 1 }, { timestamp := "2024-01-02", heat_score := 2 },
   { timestamp := "2024-01-03", heat_score := 3 }, { timestamp := "2024-01-04", heat_score := 4 },
   { timestamp := "2024-01-05", heat_score := 5 }, { timestamp := "2024-01-06", heat_score := 6 },
   { timestamp := "2024-01-07", heat_score := 7 }, { timestamp := "2024-01-08", heat_score := 8 },
   { timestamp := "2024-01-09", heat_score := 9 }, { timestamp := "2024-01-10", heat_score := 10 },
   { timestamp := "2024-01-11", heat_score := 11 }]

/-- Three ascending daily points; the maximum is the last. -/
def c5Pts3 : List LifeRaw :=
  [{ timestamp := "2024-01-01", heat_score := 1 }, { timestamp := "2024-01-02", heat_score := 2 },
   { timestamp := "2024-01-03", heat_score := 3 }]

/-! ## RealScore (`services/real_score.py`)

Timestamps pass through `datetime.fromisoformat`; the model below parses the
`YYYY-MM-DD` and `YYYY-MM-DDTHH:MM:SS` forms this repository produces and
treats every other input as a parse failure (further forms CPython accepts
are outside the model).  The date arithmetic is the standard proleptic
Gregorian civil-day computation, so timestamp differences agree with
`datetime` subtraction. -/
def isLeapYear (y : ℕ) : Bool :=
  (y % 4 == 0 && y % 100 != 0) || y % 400 == 0

def daysInMonth (y m : ℕ) : ℕ :=
  if m = 2 then (if isLeapYear y then 29 else 28)
  else if m = 4 ∨ m = 6 ∨ m = 9 ∨ m = 11 then 30
  else 31

/-- Proleptic Gregorian day number of `y-m-d` relative to 1970-01-01. -/
def daysFromCivil (y m d : ℕ) : ℤ :=
  let y' : ℤ := if m ≤ 2 then (y : ℤ) - 1 else (y : ℤ)
  let era : ℤ := Int.fdiv y' 400
  let yoe : ℤ := y' - era * 400
  let mp : ℤ := ((m : ℤ) + 9) % 12
  let doy : ℤ := (153 * mp + 2) / 5 + (d : ℤ) - 1
  let doe : ℤ := yoe * 365 + yoe / 4 - yoe / 100 + doy
  era * 146097 + doe - 719468

def parseDateFields : List Char → Option (ℕ × ℕ × ℕ)
  | [y1, y2, y3, y4, '-', m1, m2, '-', d1, d2] =>
    if y1.isDigit && y2.isDigit && y3.isDigit && y4.isDigit && m1.isDigit && m2.isDigit
        && d1.isDigit && d2.isDigit then
      let y := (y1.toNat - 48) * 1000 + (y2.toNat - 48) * 100 +
        (y3.toNat - 48) * 10 + (y4.toNat - 48)
      let m := (m1.toNat - 48) * 10 + (m2.toNat - 48)
      let d := (d1.toNat - 48) * 10 + (d2.toNat - 48)
      if 1 ≤ m && m ≤ 12 && 1 ≤ d && d ≤ daysInMonth y m then some (y, m, d) else none
    else none
  | _ => none

def parseTimeFields : List Char → Option ℕ
  | [h1, h2, ':', n1, n2, ':', s1, s2] =>
    if h1.isDigit && h2.isDigit && n1.isDigit && n2.isDigit && s1.isDigit && s2.isDigit then
      let h := (h1.toNat - 48) * 10 + (h2.toNat - 48)
      let n := (n1.toNat - 48) * 10 + (n2.toNat - 48)
      let s := (s1.toNat - 48) * 10 + (s2.toNat - 48)
      if h ≤ 23 && n ≤ 59 && s ≤ 59 then some (h * 3600 + n * 60 + s) else none
    else none
  | _ => none

/-- `datetime.fromisoformat` on the modelled subset, as POSIX seconds. -/
def parseIsoTimestamp (s : String) : Option ℤ :=
  let cs := s.toList
  match parseDateFields (cs.take 10) with
  | none => none
  | some ymd =>
    match cs.drop 10 with
    | [] => some (daysFromCivil ymd.1 ymd.2.1 ymd.2.2 * 86400)
    | 'T' :: rest =>
      match parseTimeFields rest with
      | some t => some (daysFromCivil ymd.1 ymd.2.1 ymd.2.2 * 86400 + t)
      | none => none
    | _ => none

/-- `RealScoreCalculator.calculate_platform_multiplier`. -/
def calculate_platform_multiplier (platform_count : ℤ) : ℚ :=
  if platform_count ≤ 0 then 0
  else if platform_count = 1 then 3/10
  else if platform_count = 2 then 1
  else min ((3/2 : ℚ) ^ (platform_count - 2).toNat) 5

/-- `RealScoreCalculator.calculate_longevity_factor`: on two parseable
timestamps, `days = (last - first).days + 1` (floored whole-day difference
plus one) and the result is `log2(days + 1)`; any parse failure
(`ValueError`/`TypeError` in the source) yields the neutral `1.0`. -/
noncomputable def calculate_longevity_factor (first_seen last_seen : String) : ℝ :=
  match parseIsoTimestamp first_seen, parseIsoTimestamp last_seen with
  | some f, some l => Real.logb 2 (((Int.fdiv (l - f) 86400 + 1 : ℤ) : ℝ) + 1)
  | _, _ => 1

/-- Does the character list start with the pattern? -/
def startsWithL : List Char → List Char → Bool
  | _, [] => true
  | [], _ :: _ => false
  | c :: cs, p :: ps => c == p && startsWithL cs ps

/-- Does the pattern occur anywhere in the character list? -/
def containsL : List Char → List Char → Bool
  | [], pat => startsWithL [] pat
  | c :: rest, pat => startsWithL (c :: rest) pat || containsL rest pat

def endsWithL (l pat : List Char) : Bool :=
  startsWithL l.reverse pat.reverse

/-- An occurrence of `pat1` followed (disjointly) by a later occurrence of
`pat2`: models `re.match(".*pat1.*pat2", s)`. -/
def containsSeq (pat1 pat2 : List Char) : List Char → Bool
  | [] => startsWithL [] pat1 && containsL (([] : List Char).drop pat1.length) pat2
  | c :: rest =>
    (startsWithL (c :: rest) pat1 && containsL ((c :: rest).drop pat1.length) pat2) ||
      containsSeq pat1 pat2 rest

/-- `re.match("^#.*品牌.*#$", s)`: wrapped in `#...#` with 品牌 inside. -/
def hashBrandPattern (l : List Char) : Bool :=
  2 ≤ l.length && startsWithL l ['#'] && endsWithL l ['#'] &&
    containsL (l.drop 1).dropLast "品牌".toList

/-- The `MARKETING_PATTERNS` list of `real_score.py`, pattern by pattern in
source order (`re.match` anchors at the start, so `.*X$` = ends with X,
`.*X.*` = contains X, `^X.*` = starts with X, `.*出道.*周年` = 出道 then 周年
later).  `re.IGNORECASE` is irrelevant — no pattern contains a cased letter —
and the newline subtleties of `.`/`$` are outside the model. -/
def matchesMarketingPattern (kw : String) : Bool :=
  let l := kw.toList
  endsWithL l "发布会".toList ||
  containsL l "新品".toList ||
  containsL l "代言".toList ||
  containsL l "官宣".toList ||
  containsL l "预售".toList ||
  containsL l "大促".toList ||
  containsL l "折扣".toList ||
  containsL l "满减".toList ||
  startsWithL l "618".toList ||
  endsWithL l "618".toList ||
  startsWithL l "双十一".toList ||
  endsWithL l "双十一".toList ||
  startsWithL l "双11".toList ||
  endsWithL l "双11".toList ||
  startsWithL l "双十二".toList ||
  endsWithL l "双十二".toList ||
  endsWithL l "生日快乐".toList ||
  containsL l "应援".toList ||
  containsL l "打榜".toList ||
  containsL l "超话".toList ||
  containsSeq "出道".toList "周年".toList l ||
  hashBrandPattern l

/-- `RealScoreCalculator.calculate_marketing_penalty`. -/
def calculate_marketing_penalty (keyword : String) (is_marketing_flag : Bool) : ℚ :=
  if is_marketing_flag then 8/10
  else if matchesMarketingPattern keyword then 5/10
  else 0

/-- Python `round(x, 2)` over the reals.  (CPython rounds the nearest double,
half to even; away from exact halves of 0.005 the two agree, and every claim
below evaluates it at such points.) -/
noncomputable def round2R (x : ℝ) : ℝ :=
  (round (100 * x) : ℤ) / 100

/-- The `trend_data` dict passed to `calculate_real_score`: every documented
field may be absent, `dict.get` supplies the default. -/
structure TrendData where
  keyword : Option String := none
  raw_heat_score : Option ℚ := none
  platform_count : Option ℤ := none
  first_seen : Option String := none
  last_seen : Option String := none
  is_marketing : Option Bool := none
deriving DecidableEq

/-- `RealScoreCalculator.calculate_real_score`. -/
noncomputable def calculate_real_score (td : TrendData) : ℝ :=
  let keyword := td.keyword.getD ""
  let base_heat : ℚ := td.raw_heat_score.getD 0
  let platform_count := td.platform_count.getD 1
  let first_seen := td.first_seen.getD ""
  let last_seen := td.last_seen.getD ""
  let is_marketing := td.is_marketing.getD false
  let platform_multiplier := calculate_platform_multiplier platform_count
  let longevity_factor := calculate_longevity_factor first_seen last_seen
  let marketing_penalty := calculate_marketing_penalty keyword is_marketing
  round2R ((base_heat : ℝ) * (platform_multiplier : ℝ) * longevity_factor *
    (1 - (marketing_penalty : ℝ)))

/-! ## Per-platform fetching and the TTL cache (`FetcherManager`)

`fetch_single_platform` and `fetch_all_platforms` are modelled as explicit
state transformers over the manager's cache.  A fetch outcome is given by
`fetchFn : String → Except String (List RawItem)`; `Except.error` models the
adapter raising or timing out.  `asyncio.gather` runs one task per registered
platform, each touching only its own platform's cache keys, so the sequential
composition below is observationally the same per key. -/
/-- The mutable state of a `FetcherManager`: registered platform names in
registration order, the `_cache` payloads and the `_cache_time` capture times
(in seconds). -/
structure FMState where
  fetchers : List String
  cache : List (String × List RawItem)
  cacheTime : List (String × ℤ)
deriving DecidableEq

/-- `CACHE_TTL = 60 * 5` seconds. -/
def CACHE_TTL : ℤ := 60 * 5

/-- `FetcherManager._is_cache_valid` at current time `now`. -/
def isCacheValid (s : FMState) (now : ℤ) (platform : String) : Bool :=
  match dictLookup s.cacheTime platform with
  | none => false
  | some t => now - t < CACHE_TTL

/-- `FetcherManager.fetch_single_platform`: raises on an unregistered
platform; serves the cache slice when valid; otherwise invokes the adapter
and, only on success, overwrites the cache entry and its timestamp.  An
adapter error propagates before the cache-update lines run, so the state is
exactly as it was. -/
def fetch_single_platform (s : FMState) (now : ℤ)
    (fetchFn : String → Except String (List RawItem)) (platform : String)
    (limit : ℕ) (use_cache : Bool) : Except String (FMState × List RawItem) :=
  if platform ∉ s.fetchers then Except.error ("未注册的平台: " ++ platform)
  else if use_cache && isCacheValid s now platform then
    Except.ok (s, ((dictLookup s.cache platform).getD []).take limit)
  else
    match fetchFn platform with
    | Except.error e => Except.error e
    | Except.ok data =>
      Except.ok
        ({ s with cache := dictSet s.cache platform data
                  cacheTime := dictSet s.cacheTime platform now }, data)

/-- One `zip(platforms, results)` entry of `fetch_all_platforms`: an
exception becomes `data[platform] = []`, a success threads the updated state
and records the fetched items. -/
def fetchStep (now : ℤ) (fetchFn : String → Except String (List RawItem))
    (limit : ℕ) (use_cache : Bool)
    (acc : FMState × List (String × List RawItem)) (platform : String) :
    FMState × List (String × List RawItem) :=
  match fetch_single_platform acc.1 now fetchFn platform limit use_cache with
  | Except.error _ => (acc.1, acc.2 ++ [(platform, [])])
  | Except.ok sd => (sd.1, acc.2 ++ [(platform, sd.2)])

/-- `FetcherManager.fetch_all_platforms`: one fetch per registered platform;
a raising fetch contributes `[]` for the cycle (`return_exceptions=True`),
and the cycle itself always returns with one entry per platform. -/
def fetch_all_platforms (s : FMState) (now : ℤ)
    (fetchFn : String → Except String (List RawItem))
    (limit_per_platform : ℕ) (use_cache : Bool) :
    FMState × List (String × List RawItem) :=
  s.fetchers.foldl (fetchStep now fetchFn limit_per_platform use_cache) (s, [])

/-- The manager state for the C9 witness: two registered platforms and a
stale cache entry for "weibo". -/
def c9State : FMState where
  fetchers := ["weibo", "zhihu"]
  cache := [("weibo", [{ keyword := "old", raw_heat_score := 1, timestamp := "t", metadata := [] }])]
  cacheTime := [("weibo", 0)]

/-- Fetch outcomes for the C9 witness: "weibo" raises, the rest succeed. -/
def c9Fetch : String → Except String (List RawItem) := fun q =>
  if q = "weibo" then Except.error "boom"
  else Except.ok [{ keyword := "fresh", raw_heat_score := 2, timestamp := "t2", metadata := [] }]

/-! ## GitHub archive statistics (`services/github_archive.py`) -/
/-- `calculate_burst_score`.  `peak_intensity` is accepted and unused, as in
the source; `math.log(x, 5) = log x / log 5`. -/
noncomputable def calculate_burst_score (total_appearances days_on_list peak_intensity : ℕ)
    (lifespan_days : ℤ) : ℝ :=
  if days_on_list = 0 then 0
  else
    let base_score : ℝ := total_appearances
    let days_weight : ℝ :=
      if days_on_list = 1 then 3/10
      else if days_on_list = 2 then 6/10
      else if days_on_list ≤ 10 then 1
      else 1 / (Real.log days_on_list / Real.log 5)
    let concentration : ℝ := (total_appearances : ℝ) / days_on_list
    let lifespan_penalty : ℝ :=
      if lifespan_days ≤ 14 then 1
      else if lifespan_days ≤ 30 then 8/10
      else if lifespan_days ≤ 60 then 5/10
      else 3/10
    round2R (base_score * days_weight * concentration * lifespan_penalty)

/-- The claim's `days_weight` table, stated on its own. -/
noncomputable def daysWeightSpec (days_on_list : ℕ) : ℝ :=
  if days_on_list = 1 then 3/10
  else if days_on_list = 2 then 6/10
  else if days_on_list ≤ 10 then 1
  else 1 / (Real.log days_on_list / Real.log 5)

/-- The claim's `lifespan_penalty` table, stated on its own. -/
noncomputable def lifespanPenaltySpec (lifespan_days : ℤ) : ℝ :=
  if lifespan_days ≤ 14 then 1
  else if lifespan_days ≤ 30 then 8/10
  else if lifespan_days ≤ 60 then 5/10
  else 3/10

/-- One archive entry (`HotSearchItem`). -/
structure HotSearchItem where
  title : String
  url : String
  date : String
deriving DecidableEq, Repr

/-- The per-keyword accumulator of `aggregate_yearly_stats`.  The Python
`dates` set is modelled as an insertion-ordered duplicate-free list (the
source only takes its size); `date_counts` is the `Counter`. -/
structure KwStats where
  total_appearances : ℕ
  dates : List String
  first_seen : String
  last_seen : String
  date_counts : List (String × ℕ)
deriving DecidableEq, Repr

/-- A `YearlyTrendItem`. -/
structure YearlyTrendItem where
  keyword : String
  total_appearances : ℕ
  days_on_list : ℕ
  peak_date : String
  first_seen : String
  last_seen : String
  avg_appearances_per_day : ℚ
  burst_score : ℝ
  peak_intensity : ℕ

/-- Python string `<` (code-point lexicographic). -/
def strLtB (a b : String) : Bool :=
  decide (a.toList < b.toList)

/-- One item of the statistics loop of `aggregate_yearly_stats`; `bl` is the
`is_blacklisted` predicate, passed as a parameter (its fixed keyword/regex
tables are independent of the aggregation logic under verification). -/
def archiveStep (bl : String → Bool) (filter_blacklist : Bool)
    (ks : List (String × KwStats)) (item : HotSearchItem) : List (String × KwStats) :=
  if filter_blacklist && bl item.title then ks
  else
    let s0 : KwStats := (dictLookup ks item.title).getD
      { total_appearances := 0, dates := [], first_seen := item.date,
        last_seen := item.date, date_counts := [] }
    let s1 : KwStats :=
      { total_appearances := s0.total_appearances + 1
        dates := if item.date ∈ s0.dates then s0.dates else s0.dates ++ [item.date]
        first_seen := if strLtB item.date s0.first_seen then item.date else s0.first_seen
        last_seen := if strLtB s0.last_seen item.date then item.date else s0.last_seen
        date_counts :=
          dictSet s0.date_counts item.date
            ((dictLookup s0.date_counts item.date).getD 0 + 1) }
    dictSet ks item.title s1

def aggregateResults (bl : String → Bool) (filter_blacklist : Bool)
    (items : List HotSearchItem) : List (String × KwStats) :=
  items.foldl (archiveStep bl filter_blacklist) []

def maxN : List ℕ → ℕ
  | [] => 0
  | x :: xs => xs.foldl max x

/-- `Counter.most_common(1)[0]`: the first entry (in insertion order) whose
count is maximal; the `("", 0)` default is unreachable (the counter of a
surviving keyword is non-empty). -/
def mostCommon (dc : List (String × ℕ)) : String × ℕ :=
  ((dc.find? (fun kv => kv.2 == maxN (dc.map Prod.snd))).getD ("", 0))

/-- Python `round(x, 2)` on exact rationals (same half caveat as `round2R`). -/
def round2Q (x : ℚ) : ℚ :=
  (round (100 * x) : ℤ) / 100

/-- `lifespan_days = (strptime(last) - strptime(first)).days + 1` on
`%Y-%m-%d` dates; dates outside the modelled form (where `strptime` would
raise) default to 1. -/
def lifespanDays (first last : String) : ℤ :=
  match parseDateFields first.toList, parseDateFields last.toList with
  | some f, some l => daysFromCivil l.1 l.2.1 l.2.2 - daysFromCivil f.1 f.2.1 f.2.2 + 1
  | _, _ => 1

/-- One `YearlyTrendItem` built from a finished accumulator. -/
noncomputable def mkYearlyItem (kw : String) (st : KwStats) : YearlyTrendItem :=
  let pk := mostCommon st.date_counts
  let days_on_list := st.dates.length
  { keyword := kw
    total_appearances := st.total_appearances
    days_on_list := days_on_list
    peak_date := pk.1
    first_seen := st.first_seen
    last_seen := st.last_seen
    avg_appearances_per_day := round2Q ((st.total_appearances : ℚ) / (max days_on_list 1 : ℕ))
    burst_score := calculate_burst_score st.total_appearances days_on_list pk.2
      (lifespanDays st.first_seen st.last_seen)
    peak_intensity := pk.2 }

noncomputable def yearlyResults (bl : String → Bool) (filter_blacklist : Bool)
    (items : List HotSearchItem) : List YearlyTrendItem :=
  (aggregateResults bl filter_blacklist items).map (fun kv => mkYearlyItem kv.1 kv.2)

/-- `GitHubArchiveFetcher.aggregate_yearly_stats`: accumulate per-keyword
statistics in first-seen order, then `results.sort(key=..., reverse=True)`
by the selected key. -/
noncomputable def aggregate_yearly_stats (bl : String → Bool)
    (items : List HotSearchItem) (filter_blacklist : Bool) (sort_by : String) :
    List YearlyTrendItem :=
  let results := yearlyResults bl filter_blacklist items
  if sort_by = "burst" then pySortDesc YearlyTrendItem.burst_score results
  else if sort_by = "days" then pySortDesc YearlyTrendItem.days_on_list results
  else pySortDesc YearlyTrendItem.total_appearances results

@[simp] theorem dictLookup_nil (k : κ) : dictLookup ([] : List (κ × α)) k = none := rfl

theorem dictLookup_dictSet_self (m : List (κ × α)) (k : κ) (v : α) :
    dictLookup (dictSet m k v) k = some v := by
  induction m with
  | nil => simp [dictSet, dictLookup]
  | cons hd tl ih =>
    obtain ⟨k', v'⟩ := hd
    by_cases h : k' = k
    · simp [dictSet, dictLookup, h]
    · simp [dictSet, dictLookup, h, ih]

theorem dictLookup_dictSet_ne (m : List (κ × α)) (k k' : κ) (v : α) (h : k ≠ k') :
    dictLookup (dictSet m k v) k' = dictLookup m k' := by
  have h' : ¬(k = k') := h
  induction m with
  | nil => simp [dictSet, dictLookup, h']
  | cons hd tl ih =>
    obtain ⟨k₀, v₀⟩ := hd
    by_cases h0 : k₀ = k
    · subst h0
      simp [dictSet, dictLookup, h']
    · simp only [dictSet, if_neg h0]
      by_cases h1 : k₀ = k'
      · simp [dictLookup, h1]
      · simp [dictLookup, h1, ih]

theorem mem_dictSet (m : List (κ × α)) (k : κ) (v : α) (p : κ × α)
    (hp : p ∈ dictSet m k v) : p ∈ m ∨ p = (k, v) := by
  induction m with
  | nil => simpa [dictSet] using hp
  | cons hd tl ih =>
    obtain ⟨k₀, v₀⟩ := hd
    by_cases h0 : k₀ = k
    · simp only [dictSet, h0, if_pos rfl, List.mem_cons, ite_true, if_true, eq_self_iff_true] at hp
      rcases hp with h | h
      · exact Or.inr h
      · exact Or.inl (List.mem_cons_of_mem _ h)
    · simp only [dictSet, if_neg h0, List.mem_cons] at hp
      rcases hp with h | h
      · exact Or.inl (by simp [h])
      · rcases ih h with h' | h'
        · exact Or.inl (List.mem_cons_of_mem _ h')
        · exact Or.inr h'

theorem dictLookup_eq_some_of_mem_keys (m : List (κ × α)) (k : κ)
    (h : k ∈ m.map Prod.fst) : ∃ v, dictLookup m k = some v := by
  induction m with
  | nil => simp at h
  | cons hd tl ih =>
    obtain ⟨k₀, v₀⟩ := hd
    by_cases h0 : k₀ = k
    · exact ⟨v₀, by simp [dictLookup, h0]⟩
    · simp only [List.map_cons, List.mem_cons] at h
      rcases h with h | h
      · exact absurd h.symm h0
      · obtain ⟨v, hv⟩ := ih h
        exact ⟨v, by simp [dictLookup, h0, hv]⟩

theorem dictLookup_isSome_iff_mem_keys (m : List (κ × α)) (k : κ) :
    (dictLookup m k).isSome = true ↔ k ∈ m.map Prod.fst := by
  induction m with
  | nil => simp [dictLookup]
  | cons hd tl ih =>
    obtain ⟨k₀, v₀⟩ := hd
    by_cases h0 : k₀ = k
    · simp [dictLookup, h0]
    · simp [dictLookup, h0, ih, Ne.symm h0]

theorem keys_dictSet_of_mem (m : List (κ × α)) (k : κ) (v : α)
    (h : k ∈ m.map Prod.fst) :
    (dictSet m k v).map Prod.fst = m.map Prod.fst := by
  induction m with
  | nil => simp at h
  | cons hd tl ih =>
    obtain ⟨k₀, v₀⟩ := hd
    by_cases h0 : k₀ = k
    · simp [dictSet, h0]
    · simp only [List.map_cons, List.mem_cons] at h
      rcases h with h | h
      · exact absurd h.symm h0
      · simp [dictSet, h0, ih h]

theorem keys_dictSet_of_not_mem (m : List (κ × α)) (k : κ) (v : α)
    (h : k ∉ m.map Prod.fst) :
    (dictSet m k v).map Prod.fst = m.map Prod.fst ++ [k] := by
  induction m with
  | nil => simp [dictSet]
  | cons hd tl ih =>
    obtain ⟨k₀, v₀⟩ := hd
    simp only [List.map_cons, List.mem_cons] at h
    push_neg at h
    have h0 : ¬(k₀ = k) := fun h' => h.1 h'.symm
    simp [dictSet, h0, ih h.2]

theorem pyInsertK_perm (r : β → β → Prop) [DecidableRel r] (key : α → β) (x : α)
    (l : List α) : (pyInsertK r key x l).Perm (x :: l) := by
  induction l with
  | nil => simp [pyInsertK]
  | cons y ys ih =>
    by_cases h : r (key x) (key y)
    · simp only [pyInsertK, if_pos h]
      exact (ih.cons y).trans (List.Perm.swap x y ys)
    · simp [pyInsertK, if_neg h]

theorem foldl_pyInsertK_perm (r : β → β → Prop) [DecidableRel r] (key : α → β) :
    ∀ (l acc : List α),
      (l.foldl (fun acc x => pyInsertK r key x acc) acc).Perm (acc ++ l) := by
  intro l
  induction l with
  | nil => simp
  | cons x xs ih =>
    intro acc
    have h1 : (List.foldl (fun acc x => pyInsertK r key x acc)
        (pyInsertK r key x acc) xs).Perm (pyInsertK r key x acc ++ xs) := ih _
    have h2 : (pyInsertK r key x acc ++ xs).Perm ((x :: acc) ++ xs) :=
      (pyInsertK_perm r key x acc).append_right xs
    have h3 : ((x :: acc) ++ xs).Perm (acc ++ x :: xs) := List.perm_middle.symm
    exact (h1.trans h2).trans h3

theorem pySortK_perm (r : β → β → Prop) [DecidableRel r] (key : α → β)
    (l : List α) : (pySortK r key l).Perm l := by
  simpa using foldl_pyInsertK_perm r key l []

theorem mem_pyInsertK (r : β → β → Prop) [DecidableRel r] (key : α → β) (x z : α)
    (l : List α) (hz : z ∈ pyInsertK r key x l) : z = x ∨ z ∈ l := by
  simpa using (pyInsertK_perm r key x l).mem_iff.mp hz

theorem pyInsertK_sorted (r : β → β → Prop) [DecidableRel r] (key : α → β)
    (htr : ∀ a b c, r a b → r b c → r a c) (htot : ∀ a b, r a b ∨ r b a)
    (x : α) (l : List α) (hl : SortedK r key l) : SortedK r key (pyInsertK r key x l) := by
  induction l with
  | nil => simp [pyInsertK, SortedK]
  | cons y ys ih =>
    rcases List.pairwise_cons.mp hl with ⟨hy, hys⟩
    by_cases h : r (key x) (key y)
    · simp only [pyInsertK, if_pos h]
      refine List.pairwise_cons.mpr ⟨?_, ih hys⟩
      intro z hz
      rcases mem_pyInsertK r key x z ys hz with h' | h'
      · simpa [h'] using h
      · exact hy z h'
    · simp only [pyInsertK, if_neg h]
      refine List.pairwise_cons.mpr ⟨?_, List.pairwise_cons.mpr ⟨hy, hys⟩⟩
      intro z hz
      rcases List.mem_cons.mp hz with h' | h'
      · subst h'
        rcases htot (key x) (key z) with h'' | h''
        · exact absurd h'' h
        · exact h''
      · exact htr _ _ _ (hy z h') (by
          rcases htot (key x) (key y) with h'' | h''
          · exact absurd h'' h
          · exact h'')

theorem pySortK_sorted (r : β → β → Prop) [DecidableRel r] (key : α → β)
    (htr : ∀ a b c, r a b → r b c → r a c) (htot : ∀ a b, r a b ∨ r b a)
    (l : List α) : SortedK r key (pySortK r key l) := by
  suffices h : ∀ (l acc : List α), SortedK r key acc →
      SortedK r key (l.foldl (fun acc x => pyInsertK r key x acc) acc) by
    exact h l [] (by simp [SortedK])
  intro l
  induction l with
  | nil => exact fun acc h => h
  | cons x xs ih =>
    intro acc hacc
    exact ih _ (pyInsertK_sorted r key htr htot x acc hacc)

theorem filter_pyInsertK [DecidableEq β] (r : β → β → Prop) [DecidableRel r]
    (key : α → β) (hrefl : ∀ a, r a a) (k : β) (x : α) (l : List α)
    (hl : SortedK r key l) :
    (pyInsertK r key x l).filter (fun a => decide (key a = k)) =
      (if key x = k
        then l.filter (fun a => decide (key a = k)) ++ [x]
        else l.filter (fun a => decide (key a = k))) := by
  induction l with
  | nil =>
    by_cases hx : key x = k <;> simp [pyInsertK, hx]
  | cons y ys ih =>
    rcases List.pairwise_cons.mp hl with ⟨hy, hys⟩
    by_cases h : r (key x) (key y)
    · simp only [pyInsertK, if_pos h]
      by_cases hx : key x = k <;> by_cases hyk : key y = k <;>
        simp [List.filter_cons, hx, hyk, ih hys]
    · simp only [pyInsertK, if_neg h]
      by_cases hx : key x = k
      · have hclear : ∀ z ∈ y :: ys, ¬(key z = k) := by
          intro z hz hzk
          have hzx : key z = key x := by rw [hzk, hx]
          rcases List.mem_cons.mp hz with h' | h'
          · subst h'
            exact h (hzx ▸ hrefl (key z))
          · exact h (hzx ▸ hy z h')
        have hfe : (y :: ys).filter (fun a => decide (key a = k)) = [] := by
          apply List.filter_eq_nil_iff.mpr
          intro z hz
          simpa using hclear z hz
        simp [List.filter_cons, hx, hfe,
          fun h' => hclear y (List.mem_cons_self y ys) h']
      · simp [List.filter_cons, hx]

theorem filter_pySortK [DecidableEq β] (r : β → β → Prop) [DecidableRel r]
    (key : α → β) (hrefl : ∀ a, r a a) (htr : ∀ a b c, r a b → r b c → r a c)
    (htot : ∀ a b, r a b ∨ r b a) (k : β) (l : List α) :
    (pySortK r key l).filter (fun a => decide (key a = k)) =
      l.filter (fun a => decide (key a = k)) := by
  suffices h : ∀ (l acc : List α), SortedK r key acc →
      (l.foldl (fun acc x => pyInsertK r key x acc) acc).filter
          (fun a => decide (key a = k)) =
        acc.filter (fun a => decide (key a = k)) ++
          l.filter (fun a => decide (key a = k)) by
    simpa using h l [] (by simp [SortedK])
  intro l
  induction l with
  | nil => simp
  | cons x xs ih =>
    intro acc hacc
    have hstep := filter_pyInsertK r key hrefl k x acc hacc
    have hsort := pyInsertK_sorted r key htr htot x acc hacc
    by_cases hx : key x = k
    · simp only [List.foldl_cons, ih _ hsort, hstep, if_pos hx, List.filter_cons, hx]
      simp
    · simp only [List.foldl_cons, ih _ hsort, hstep, if_neg hx, List.filter_cons]
      simp [hx]

theorem pyInsertK_append (r : β → β → Prop) [DecidableRel r] (key : α → β)
    (x : α) (l : List α) (h : ∀ y ∈ l, r (key x) (key y)) :
    pyInsertK r key x l = l ++ [x] := by
  induction l with
  | nil => rfl
  | cons y ys ih =>
    have hy : r (key x) (key y) := h y (List.mem_cons_self y ys)
    simp [pyInsertK, hy, ih (fun z hz => h z (List.mem_cons_of_mem _ hz))]

theorem pySortK_of_sorted (r : β → β → Prop) [DecidableRel r] (key : α → β)
    (l : List α) (hl : l.Pairwise (fun a b => r (key b) (key a))) :
    pySortK r key l = l := by
  suffices h : ∀ (l acc : List α), l.Pairwise (fun a b => r (key b) (key a)) →
      (∀ x ∈ l, ∀ y ∈ acc, r (key x) (key y)) →
      l.foldl (fun acc x => pyInsertK r key x acc) acc = acc ++ l by
    simpa using h l [] hl (by simp)
  intro l
  induction l with
  | nil => simp
  | cons x xs ih =>
    intro acc hp hcross
    rcases List.pairwise_cons.mp hp with ⟨hx, hxs⟩
    have hins : pyInsertK r key x acc = acc ++ [x] :=
      pyInsertK_append r key x acc (hcross x (List.mem_cons_self x xs))
    have hcross' : ∀ z ∈ xs, ∀ y ∈ acc ++ [x], r (key z) (key y) := by
      intro z hz y hy
      rcases List.mem_append.mp hy with h' | h'
      · exact hcross z (List.mem_cons_of_mem _ hz) y h'
      · simp only [List.mem_singleton] at h'
        subst h'
        exact hx z hz
    simp only [List.foldl_cons, hins, ih (acc ++ [x]) hxs hcross', List.append_assoc,
      List.singleton_append]

/-! ## Merge invariants -/
theorem dictLookup_mem (m : List (κ × α)) (k : κ) (v : α)
    (h : dictLookup m k = some v) : (k, v) ∈ m := by
  induction m with
  | nil => simp [dictLookup] at h
  | cons hd tl ih =>
    obtain ⟨k₀, v₀⟩ := hd
    by_cases h0 : k₀ = k
    · subst h0
      simp only [dictLookup, if_pos rfl] at h
      obtain rfl : v₀ = v := by simpa using h
      exact List.mem_cons_self _ _
    · simp only [dictLookup, if_neg h0] at h
      exact List.mem_cons_of_mem _ (ih h)

theorem dictSet_of_lookup_none (m : List (κ × α)) (k : κ) (v : α)
    (h : dictLookup m k = none) : dictSet m k v = m ++ [(k, v)] := by
  induction m with
  | nil => rfl
  | cons hd tl ih =>
    obtain ⟨k₀, v₀⟩ := hd
    by_cases h0 : k₀ = k
    · simp [dictLookup, h0] at h
    · simp only [dictLookup, if_neg h0] at h
      simp [dictSet, h0, ih h]

theorem keys_nodup_dictSet (m : List (κ × α)) (k : κ) (v : α)
    (h : (m.map Prod.fst).Nodup) : ((dictSet m k v).map Prod.fst).Nodup := by
  by_cases hk : k ∈ m.map Prod.fst
  · rw [keys_dictSet_of_mem m k v hk]
    exact h
  · rw [keys_dictSet_of_not_mem m k v hk]
    refine List.Nodup.append h (by simp) ?_
    intro a ha hb
    simp only [List.mem_singleton] at hb
    subst hb
    exact hk ha

theorem mem_iff_dictLookup (m : List (κ × α)) (k : κ) (v : α)
    (h : (m.map Prod.fst).Nodup) : (k, v) ∈ m ↔ dictLookup m k = some v := by
  constructor
  · intro hm
    induction m with
    | nil => simp at hm
    | cons hd tl ih =>
      obtain ⟨k₀, v₀⟩ := hd
      rcases List.mem_cons.mp hm with h' | h'
      · simp only [Prod.mk.injEq] at h'
        simp [dictLookup, h'.1, h'.2]
      · have hk0 : ¬(k₀ = k) := by
          intro he
          subst he
          have : k₀ ∈ tl.map Prod.fst := List.mem_map.mpr ⟨(k₀, v), h', rfl⟩
          exact (List.nodup_cons.mp (by simpa using h)).1 this
        simp only [dictLookup, if_neg hk0]
        exact ih (List.nodup_cons.mp (by simpa using h)).2 h'
  · exact dictLookup_mem m k v

theorem keys_nodup_mergeStep (m : List (String × MergeEntry)) (pr : String × RawItem)
    (h : (m.map Prod.fst).Nodup) : ((mergeStep m pr).map Prod.fst).Nodup :=
  keys_nodup_dictSet _ _ _ h

theorem keys_nodup_foldl_mergeStep (pairs : List (String × RawItem)) :
    ∀ (m : List (String × MergeEntry)), (m.map Prod.fst).Nodup →
      (((pairs.foldl mergeStep m).map Prod.fst)).Nodup := by
  induction pairs with
  | nil => exact fun m h => h
  | cons pr rest ih => exact fun m h => ih _ (keys_nodup_mergeStep m pr h)

theorem entryInvA_updateEntry (platform : String) (item : RawItem) (e : MergeEntry)
    (h : e.platforms.Nodup) :
    (updateEntry platform item e).platforms.Nodup ∧
      (updateEntry platform item e).platforms ≠ [] := by
  by_cases hp : platform ∈ e.platforms
  · refine ⟨by simpa [updateEntry, hp] using h, ?_⟩
    simp only [updateEntry, if_pos hp]
    intro he
    rw [he] at hp
    simp at hp
  · constructor
    · simp only [updateEntry, if_neg hp]
      simpa [List.nodup_append] using ⟨h, fun h' => hp h'⟩
    · simp [updateEntry, if_neg hp]

theorem entryInvA_mergeStep (m : List (String × MergeEntry)) (pr : String × RawItem)
    (h : EntryInvA m) : EntryInvA (mergeStep m pr) := by
  intro kv hkv
  rcases mem_dictSet _ _ _ _ hkv with h' | h'
  · exact h kv h'
  · subst h'
    cases hl : dictLookup m (normalizeKeyword pr.2.keyword) with
    | none => simp only [mergeStep, hl]; exact entryInvA_updateEntry _ _ _ (by simp [freshEntry])
    | some e =>
      have he := h _ (dictLookup_mem _ _ _ hl)
      simp only [mergeStep, hl]
      exact entryInvA_updateEntry _ _ _ he.1

theorem entryInvA_buildKeywordMap (allData : List (String × List RawItem)) :
    EntryInvA (buildKeywordMap allData) := by
  suffices h : ∀ (pairs : List (String × RawItem)) (m : List (String × MergeEntry)),
      EntryInvA m → EntryInvA (pairs.foldl mergeStep m) by
    exact h _ [] (by intro kv hkv; simp at hkv)
  intro pairs
  induction pairs with
  | nil => exact fun m h => h
  | cons pr rest ih => exact fun m h => ih _ (entryInvA_mergeStep m pr h)

theorem mergeStep_eq (m : List (String × MergeEntry)) (pr : String × RawItem) :
    mergeStep m pr =
      dictSet m (normalizeKeyword pr.2.keyword)
        (updateEntry pr.1 pr.2
          ((dictLookup m (normalizeKeyword pr.2.keyword)).getD (freshEntry pr.2))) := rfl

theorem map_pairKey_append (done : List (String × RawItem)) (pr : String × RawItem) :
    (done ++ [pr]).map pairKey = done.map pairKey ++ [pairKey pr] := by simp

theorem entryInvB_mergeStep (done : List (String × RawItem))
    (m : List (String × MergeEntry)) (pr : String × RawItem)
    (hinv : EntryInvB done m) (hnew : pairKey pr ∉ done.map pairKey) :
    EntryInvB (done ++ [pr]) (mergeStep m pr) := by
  obtain ⟨p₀, it⟩ := pr
  have hpk : pairKey (p₀, it) = (p₀, normalizeKeyword it.keyword) := rfl
  rw [hpk] at hnew
  constructor
  · intro nk e he
    rw [mergeStep_eq] at he
    by_cases hnk : nk = normalizeKeyword it.keyword
    · subst hnk
      rw [dictLookup_dictSet_self] at he
      obtain rfl :
          updateEntry p₀ it
            ((dictLookup m (normalizeKeyword it.keyword)).getD (freshEntry it)) = e := by
        simpa using he
      cases hl : dictLookup m (normalizeKeyword it.keyword) with
      | none =>
        have hdone : ∀ p, (p, normalizeKeyword it.keyword) ∉ done.map pairKey := by
          intro p hp
          rcases List.mem_map.mp hp with ⟨pr', hpr', hkey⟩
          have h2 := hinv.2 pr' hpr'
          rw [hkey] at h2
          simp only [dictLookup_isSome_iff_mem_keys] at h2
          rcases dictLookup_eq_some_of_mem_keys m (normalizeKeyword it.keyword) h2 with ⟨v, hv⟩
          rw [hl] at hv
          exact Option.noConfusion hv
        have hfresh : updateEntry p₀ it (freshEntry it) =
            { keyword := it.keyword
              platforms := [p₀]
              raw_heat_scores := [(p₀, it.raw_heat_score)]
              total_raw_heat := 0 + it.raw_heat_score
              first_seen := it.timestamp
              metadata_by_platform := [(p₀, it.metadata)] } := by
          simp [updateEntry, freshEntry, dictSet]
        simp only [Option.getD_none, hfresh]
        constructor
        · simp
        · intro p
          rw [map_pairKey_append, hpk]
          by_cases hp : p = p₀
          · subst hp
            simp [dictLookup]
          · have hlhs : dictLookup [(p₀, it.raw_heat_score)] p = none := by
              have hne : ¬(p₀ = p) := fun h' => hp h'.symm
              simp [dictLookup, hne]
            rw [hlhs]
            simp only [Option.isSome_none, List.mem_append, List.mem_singleton]
            constructor
            · intro h'
              exact absurd h' (by simp)
            · rintro (h' | h')
              · exact absurd h' (hdone p)
              · exact absurd (congrArg Prod.fst h') (by simpa using hp)
      | some e₀ =>
        obtain ⟨hsum, hkeys⟩ := hinv.1 (normalizeKeyword it.keyword) e₀ hl
        have hp₀ : dictLookup e₀.raw_heat_scores p₀ = none := by
          cases hcase : dictLookup e₀.raw_heat_scores p₀ with
          | none => rfl
          | some v =>
            exact absurd ((hkeys p₀).mp (by simp [hcase])) hnew
        have happ : dictSet e₀.raw_heat_scores p₀ it.raw_heat_score =
            e₀.raw_heat_scores ++ [(p₀, it.raw_heat_score)] :=
          dictSet_of_lookup_none _ _ _ hp₀
        simp only [Option.getD_some]
        constructor
        · simp [updateEntry, happ, hsum]
        · intro p
          rw [map_pairKey_append, hpk]
          simp only [updateEntry]
          by_cases hp : p = p₀
          · subst hp
            rw [dictLookup_dictSet_self]
            simp
          · rw [dictLookup_dictSet_ne _ _ _ _ (fun h' => hp h'.symm)]
            rw [hkeys p]
            simp only [List.mem_append, List.mem_singleton]
            constructor
            · intro h'
              exact Or.inl h'
            · rintro (h' | h')
              · exact h'
              · exact absurd (congrArg Prod.fst h') (by simpa using hp)
    · rw [dictLookup_dictSet_ne _ _ _ _ (fun h' => hnk h'.symm)] at he
      obtain ⟨hsum, hkeys⟩ := hinv.1 nk e he
      refine ⟨hsum, fun p => ?_⟩
      rw [hkeys p, map_pairKey_append, hpk]
      simp only [List.mem_append, List.mem_singleton]
      constructor
      · intro h'
        exact Or.inl h'
      · rintro (h' | h')
        · exact h'
        · exact absurd (congrArg Prod.snd h') (by simpa using hnk)
  · intro pr' hpr'
    rw [mergeStep_eq]
    rcases List.mem_append.mp hpr' with h' | h'
    · have h2 := hinv.2 pr' h'
      by_cases hk : (pairKey pr').2 = normalizeKeyword it.keyword
      · rw [hk, dictLookup_dictSet_self]
        rfl
      · rw [dictLookup_dictSet_ne _ _ _ _ (fun h'' => hk h''.symm)]
        exact h2
    · obtain rfl : pr' = (p₀, it) := List.mem_singleton.mp h'
      rw [hpk, dictLookup_dictSet_self]
      rfl

theorem entryInvB_foldl (rest : List (String × RawItem)) :
    ∀ (done : List (String × RawItem)) (m : List (String × MergeEntry)),
      EntryInvB done m → ((done ++ rest).map pairKey).Nodup →
      EntryInvB (done ++ rest) (rest.foldl mergeStep m) := by
  induction rest with
  | nil => intro done m h _; simpa using h
  | cons pr rest' ih =>
    intro done m h hnodup
    have hnew : pairKey pr ∉ done.map pairKey := by
      intro hmem
      have h1 : ((done.map pairKey) ++ (pairKey pr :: rest'.map pairKey)).Nodup := by
        simpa using hnodup
      rcases List.nodup_append.mp h1 with ⟨_, _, hdisj⟩
      exact hdisj hmem (by simp)
    have hstep := entryInvB_mergeStep done m pr h hnew
    have heq : done ++ pr :: rest' = (done ++ [pr]) ++ rest' := by simp
    rw [heq]
    exact ih (done ++ [pr]) (mergeStep m pr) hstep (by rw [← heq]; exact hnodup)

theorem entryInvB_buildKeywordMap (allData : List (String × List RawItem))
    (hnodup : ((platformItemPairs allData).map pairKey).Nodup) :
    EntryInvB (platformItemPairs allData) (buildKeywordMap allData) := by
  have h := entryInvB_foldl (platformItemPairs allData) [] []
    ⟨by intro nk e he; simp [dictLookup] at he, by intro pr hpr; simp at hpr⟩
    (by simpa using hnodup)
  simpa using h

/-! ## Properties of the normalization -/
theorem toNat_char_ofNat (n : ℕ) (h : n < 0xd800) : (Char.ofNat n).toNat = n := by
  have hv : n.isValidChar := Or.inl h
  simp only [Char.ofNat, dif_pos hv]
  rfl

theorem toLower_toNat (c : Char) :
    c.toLower.toNat = if 65 ≤ c.toNat ∧ c.toNat ≤ 90 then c.toNat + 32 else c.toNat := by
  by_cases h : 65 ≤ c.toNat ∧ c.toNat ≤ 90
  · have hlt : c.toNat + 32 < 0xd800 := by omega
    simp [Char.toLower, h, toNat_char_ofNat _ hlt]
  · simp [Char.toLower, h]

theorem toLower_eq_self (c : Char) (h : ¬(65 ≤ c.toNat ∧ c.toNat ≤ 90)) :
    c.toLower = c := by
  simp [Char.toLower, h]

theorem toLower_toLower (c : Char) : c.toLower.toLower = c.toLower := by
  by_cases h : 65 ≤ c.toNat ∧ c.toNat ≤ 90
  · apply toLower_eq_self
    rw [toLower_toNat, if_pos h]
    omega
  · rw [toLower_eq_self c h, toLower_eq_self c h]

theorem pythonWordChar_toLower (c : Char) (h : pythonWordChar c = true) :
    pythonWordChar c.toLower = true := by
  unfold pythonWordChar at *
  rw [toLower_toNat]
  by_cases hu : 65 ≤ c.toNat ∧ c.toNat ≤ 90
  · rw [if_pos hu]
    simp only [wordCharNat, Bool.or_eq_true, Bool.and_eq_true, decide_eq_true_eq,
      beq_iff_eq, bne_iff_ne, ne_eq] at h ⊢
    omega
  · rw [if_neg hu]
    exact h

theorem not_whitespace_of_wordChar (c : Char) (h : pythonWordChar c = true) :
    c.isWhitespace = false := by
  by_contra hw
  have hw' : c.isWhitespace = true := by simpa using hw
  simp only [Char.isWhitespace, Bool.or_eq_true, decide_eq_true_eq] at hw'
  rcases hw' with (((h1 | h1) | h1) | h1) <;> subst h1 <;> revert h <;> decide

theorem dropWhile_eq_self_of_all (p : Char → Bool) (l : List Char)
    (h : ∀ c ∈ l, p c = false) : l.dropWhile p = l := by
  cases l with
  | nil => rfl
  | cons hd tl => simp [List.dropWhile_cons, h hd (List.mem_cons_self hd tl)]

theorem pyStrip_eq_self (l : List Char) (h : ∀ c ∈ l, c.isWhitespace = false) :
    pyStrip l = l := by
  unfold pyStrip
  rw [dropWhile_eq_self_of_all _ _ h,
    dropWhile_eq_self_of_all _ _ (fun c hc => h c (by simpa using hc))]
  simp

theorem toList_normalizeKeyword (s : String) :
    (normalizeKeyword s).toList = ((pyStrip s.toList).filter pythonWordChar).map Char.toLower :=
  rfl

theorem normalizeKeyword_chars (s : String) :
    ∀ c ∈ (normalizeKeyword s).toList, pythonWordChar c = true := by
  intro c hc
  rw [toList_normalizeKeyword] at hc
  rcases List.mem_map.mp hc with ⟨w, hw, rfl⟩
  exact pythonWordChar_toLower w (List.of_mem_filter hw)

theorem normalizeKeyword_idem (s : String) :
    normalizeKeyword (normalizeKeyword s) = normalizeKeyword s := by
  have hchars := normalizeKeyword_chars s
  conv_lhs => rw [normalizeKeyword]
  rw [pyStrip_eq_self _ (fun c hc => not_whitespace_of_wordChar c (hchars c hc))]
  rw [List.filter_eq_self.mpr (fun c hc => hchars c (by simpa using hc))]
  have hmap : (normalizeKeyword s).toList.map Char.toLower = (normalizeKeyword s).toList := by
    rw [toList_normalizeKeyword, List.map_map]
    exact List.map_congr_left (fun c _ => toLower_toLower c)
  rw [hmap]
  rfl

/-! ## The merged keys are the distinct normalized keywords in first-seen order -/
theorem firstDedupAux_congr (l : List κ) :
    ∀ (seen seen' : List κ), (∀ x, x ∈ seen ↔ x ∈ seen') →
      firstDedupAux seen l = firstDedupAux seen' l := by
  induction l with
  | nil => intro seen seen' _; rfl
  | cons x xs ih =>
    intro seen seen' h
    by_cases hx : x ∈ seen
    · simp only [firstDedupAux, if_pos hx, if_pos ((h x).mp hx)]
      exact ih seen seen' h
    · simp only [firstDedupAux, if_neg hx, if_neg (fun h' => hx ((h x).mpr h'))]
      refine congrArg (x :: ·) (ih _ _ ?_)
      intro y
      simp [h y]

theorem keys_foldl_mergeStep (pairs : List (String × RawItem)) :
    ∀ (m : List (String × MergeEntry)),
      (pairs.foldl mergeStep m).map Prod.fst =
        m.map Prod.fst ++
          firstDedupAux (m.map Prod.fst)
            (pairs.map (fun pr => normalizeKeyword pr.2.keyword)) := by
  induction pairs with
  | nil => intro m; simp [firstDedupAux]
  | cons pr rest ih =>
    intro m
    by_cases hmem : normalizeKeyword pr.2.keyword ∈ m.map Prod.fst
    · have hkeys : (mergeStep m pr).map Prod.fst = m.map Prod.fst := by
        rw [mergeStep_eq]
        exact keys_dictSet_of_mem _ _ _ hmem
      simp only [List.foldl_cons, List.map_cons, ih (mergeStep m pr), hkeys,
        firstDedupAux, if_pos hmem]
    · have hkeys : (mergeStep m pr).map Prod.fst =
          m.map Prod.fst ++ [normalizeKeyword pr.2.keyword] := by
        rw [mergeStep_eq]
        exact keys_dictSet_of_not_mem _ _ _ hmem
      simp only [List.foldl_cons, List.map_cons, ih (mergeStep m pr), hkeys,
        firstDedupAux, if_neg hmem]
      rw [firstDedupAux_congr _ (m.map Prod.fst ++ [normalizeKeyword pr.2.keyword])
        (normalizeKeyword pr.2.keyword :: m.map Prod.fst) (by intro y; simp; tauto)]
      simp

theorem buildKeywordMap_keys (allData : List (String × List RawItem)) :
    (buildKeywordMap allData).map Prod.fst =
      firstDedup ((platformItemPairs allData).map
        (fun pr => normalizeKeyword pr.2.keyword)) := by
  simpa [buildKeywordMap, firstDedup] using
    keys_foldl_mergeStep (platformItemPairs allData) []

/-! ## Claim theorems: merging -/
/-- C1 (amended): every record returned by `fetch_and_merge` has
`platform_count` equal to the size of its (duplicate-free) platform set, and
at least 1.  Provided no platform contributes two items with the same
normalized keyword, its `raw_heat_score` also equals the sum of the
per-platform heat map; without that proviso the loop adds every duplicate's
heat to the total but keeps only the last one in the map (see the
counterexample), so the sum invariant fails. -/
theorem fetch_and_merge_invariants (allData : List (String × List RawItem))
    (now : String) (t : MergedTrend) (ht : t ∈ fetch_and_merge allData now) :
    (t.platform_count = t.platforms.dedup.length ∧ 1 ≤ t.platform_count) ∧
    (((platformItemPairs allData).map pairKey).Nodup →
      t.raw_heat_score = (t.heat_by_platform.map Prod.snd).sum) := by
  have hmem : t ∈ mergedUnsorted allData now :=
    (pySortK_perm _ _ _).mem_iff.mp ht
  rcases List.mem_map.mp hmem with ⟨kv, hkv, rfl⟩
  obtain ⟨k, e⟩ := kv
  have hA := entryInvA_buildKeywordMap allData (k, e) hkv
  constructor
  · constructor
    · show e.platforms.length = e.platforms.dedup.length
      rw [List.Nodup.dedup hA.1]
    · show 1 ≤ e.platforms.length
      exact List.length_pos.mpr hA.2
  · intro hnodup
    have hkeys := keys_nodup_foldl_mergeStep (platformItemPairs allData) [] (by simp)
    have hlook : dictLookup (buildKeywordMap allData) k = some e :=
      (mem_iff_dictLookup _ k e hkeys).mp hkv
    exact ((entryInvB_buildKeywordMap allData hnodup).1 k e hlook).1

/-- Witness for C1 at a concrete input. -/
theorem fetch_and_merge_invariants_witness :
    (c1Trend.platform_count = c1Trend.platforms.dedup.length ∧ 1 ≤ c1Trend.platform_count) ∧
      c1Trend.raw_heat_score = (c1Trend.heat_by_platform.map Prod.snd).sum := by
  have h := fetch_and_merge_invariants c1AllData "now" c1Trend
    (by with_unfolding_all decide)
  exact ⟨h.1, h.2 (by decide)⟩

/-- Counterexample for C1 as stated: when one platform contributes two items
whose keywords normalize to the same key, the merged total (12) is not the sum
of the per-platform heat map (7): the second heat overwrote the first in the
map while both were added to the total. -/
theorem fetch_and_merge_heat_sum_counterexample :
    (fetch_and_merge
        [("weibo",
          [{ keyword := "A b", raw_heat_score := 5, timestamp := "t1", metadata := [] },
           { keyword := "ab", raw_heat_score := 7, timestamp := "t2", metadata := [] }])]
        "now").map (fun t => (t.raw_heat_score, (t.heat_by_platform.map Prod.snd).sum)) =
      [(12, 7)] ∧ (12 : ℚ) ≠ 7 := by
  constructor
  · with_unfolding_all decide
  · with_unfolding_all decide

/-- C3 (amended): `fetch_and_merge` output is ordered by descending total raw
heat; records with equal total heat keep the order in which their normalized
keywords were first encountered in the platform iteration (Python sorts are
stable), not an order by `first_seen` or keyword. -/
theorem fetch_and_merge_sorted (allData : List (String × List RawItem)) (now : String) :
    (fetch_and_merge allData now).Pairwise
        (fun a b => b.raw_heat_score ≤ a.raw_heat_score) ∧
      (fetch_and_merge allData now).Perm (mergedUnsorted allData now) ∧
      ∀ q : ℚ,
        (fetch_and_merge allData now).filter (fun t => decide (t.raw_heat_score = q)) =
          (mergedUnsorted allData now).filter (fun t => decide (t.raw_heat_score = q)) := by
  refine ⟨?_, pySortK_perm _ _ _, ?_⟩
  · exact pySortK_sorted (fun a b : ℚ => a ≤ b) MergedTrend.raw_heat_score
      (fun a b c hab hbc => le_trans hab hbc) le_total (mergedUnsorted allData now)
  · intro q
    exact filter_pySortK (fun a b : ℚ => a ≤ b) MergedTrend.raw_heat_score
      (fun a => le_refl a) (fun a b c hab hbc => le_trans hab hbc) le_total q
      (mergedUnsorted allData now)

/-- Counterexample for C3 as stated: two merged records tie at total heat 5;
the claimed tie-break (earliest `first_seen`, then lexicographic keyword)
would put "a" (first seen 2024-01-01) before "b" (first seen 2024-01-02), but
the code returns "b" first because its keyword was encountered first. -/
theorem fetch_and_merge_tiebreak_counterexample :
    (fetch_and_merge
        [("weibo",
          [{ keyword := "b", raw_heat_score := 5, timestamp := "2024-01-02", metadata := [] },
           { keyword := "a", raw_heat_score := 5, timestamp := "2024-01-01", metadata := [] }])]
        "now").map (fun t => (t.keyword, t.raw_heat_score, t.first_seen)) =
      [("b", 5, "2024-01-02"), ("a", 5, "2024-01-01")] ∧
      "2024-01-01".toList < "2024-01-02".toList ∧
      "a".toList < "b".toList := by
  refine ⟨by with_unfolding_all decide, by decide, by decide⟩

/-- C8 (amended): normalization keeps exactly the Python word characters
(letters, digits, underscore — including CJK ideographs) of the trimmed
keyword, lower-cased; it is idempotent; and the merged map has exactly one
entry per distinct normalized keyword, in first-seen order, so two items merge
into one record precisely when their normalized keys are equal.  (As stated
the claim fails: `\w` keeps underscores and non-ASCII letters, see the
counterexample.) -/
theorem normalizeKeyword_spec :
    (∀ s : String, ((normalizeKeyword s).toList.all pythonWordChar) = true) ∧
      (∀ s : String, normalizeKeyword (normalizeKeyword s) = normalizeKeyword s) ∧
      ∀ allData : List (String × List RawItem),
        (buildKeywordMap allData).map Prod.fst =
          firstDedup ((platformItemPairs allData).map
            (fun pr => normalizeKeyword pr.2.keyword)) := by
  refine ⟨?_, normalizeKeyword_idem, buildKeywordMap_keys⟩
  intro s
  rw [List.all_eq_true]
  exact fun c hc => normalizeKeyword_chars s c hc

/-- Counterexample for C8 as stated: the underscore is not removed (it is a
`\w` character), so "a_b" normalizes to "a_b", not "ab", and the items "a_b"
and "ab" do not merge (two output records). -/
theorem normalizeKeyword_underscore_counterexample :
    normalizeKeyword "a_b" = "a_b" ∧ normalizeKeyword "a_b" ≠ "ab" ∧
      (fetch_and_merge
          [("weibo",
            [{ keyword := "a_b", raw_heat_score := 5, timestamp := "t1", metadata := [] },
             { keyword := "ab", raw_heat_score := 7, timestamp := "t2", metadata := [] }])]
          "now").length = 2 := by
  refine ⟨by decide, by decide, by with_unfolding_all decide⟩

theorem dictLookup_eq_none_of_not_mem (m : List (κ × α)) (k : κ)
    (h : k ∉ m.map Prod.fst) : dictLookup m k = none := by
  cases hc : dictLookup m k with
  | none => rfl
  | some v => exact absurd ((dictLookup_isSome_iff_mem_keys m k).mp (by simp [hc])) h

theorem buildDailyHeat_eq (l : List LifeRaw)
    (hasc : l.Pairwise (fun p q => dateOf p < dateOf q)) :
    buildDailyHeat l = l.map (fun p => (dateOf p, p.heat_score)) := by
  suffices h : ∀ (l : List LifeRaw) (m : List (List Char × ℚ)),
      l.Pairwise (fun p q => dateOf p < dateOf q) →
      (∀ p ∈ l, dateOf p ∉ m.map Prod.fst) →
      l.foldl
          (fun m p => dictSet m (dateOf p) ((dictLookup m (dateOf p)).getD 0 + p.heat_score)) m
        = m ++ l.map (fun p => (dateOf p, p.heat_score)) by
    simpa [buildDailyHeat] using h l [] hasc (by simp)
  intro l
  induction l with
  | nil => intro m _ _; simp
  | cons p rest ih =>
    intro m hasc hnot
    rcases List.pairwise_cons.mp hasc with ⟨hp, hrest⟩
    have hnone : dictLookup m (dateOf p) = none :=
      dictLookup_eq_none_of_not_mem m _ (hnot p (List.mem_cons_self _ _))
    have hset : dictSet m (dateOf p) ((dictLookup m (dateOf p)).getD 0 + p.heat_score)
        = m ++ [(dateOf p, p.heat_score)] := by
      rw [hnone, Option.getD_none, zero_add]
      exact dictSet_of_lookup_none _ _ _ hnone
    have hnot2 : ∀ q ∈ rest, dateOf q ∉ (m ++ [(dateOf p, p.heat_score)]).map Prod.fst := by
      intro q hq
      simp only [List.map_append, List.mem_append]
      rintro (h1 | h1)
      · exact hnot q (List.mem_cons_of_mem _ hq) h1
      · simp only [List.map_cons, List.map_nil, List.mem_singleton] at h1
        exact absurd h1 (ne_of_gt (hp q hq))
    simp only [List.foldl_cons, hset, ih (m ++ [(dateOf p, p.heat_score)]) hrest hnot2,
      List.map_cons, List.append_assoc, List.singleton_append]

theorem foldl_max_mem (xs : List ℚ) : ∀ (x : ℚ), xs.foldl max x = x ∨ xs.foldl max x ∈ xs := by
  induction xs with
  | nil => intro x; simp
  | cons y ys ih =>
    intro x
    rcases ih (max x y) with h | h
    · rcases max_choice x y with h' | h'
      · exact Or.inl (by rw [List.foldl_cons, h, h'])
      · exact Or.inr (by rw [List.foldl_cons, h, h']; exact List.mem_cons_self _ _)
    · exact Or.inr (List.mem_cons_of_mem _ (by rwa [List.foldl_cons]))

theorem maxQ_mem (l : List ℚ) (h : l ≠ []) : maxQ l ∈ l := by
  cases l with
  | nil => exact absurd rfl h
  | cons x xs =>
    rcases foldl_max_mem xs x with h' | h'
    · rw [maxQ, h']
      exact List.mem_cons_self _ _
    · exact List.mem_cons_of_mem _ h'

theorem find?_eq_getElem_findIdx (p : α → Bool) (l : List α)
    (h : l.findIdx p < l.length) : l.find? p = some (l.get ⟨l.findIdx p, h⟩) := by
  induction l with
  | nil => simp at h
  | cons x xs ih =>
    by_cases hx : p x
    · simp [List.find?_cons_of_pos _ hx, List.findIdx_cons, hx]
    · have hidx : (x :: xs).findIdx p = xs.findIdx p + 1 := by
        simp [List.findIdx_cons, hx]
      have h' : xs.findIdx p < xs.length := by
        have := h
        rw [hidx] at this
        simpa using this
      rw [List.find?_cons_of_neg _ (by simpa using hx)]
      rw [ih h']
      congr 1
      have : (x :: xs).get ⟨(x :: xs).findIdx p, h⟩ = xs.get ⟨xs.findIdx p, h'⟩ := by
        simp [hidx]
      rw [← this]

theorem dates_nodup (l : List LifeRaw)
    (hasc : l.Pairwise (fun p q => dateOf p < dateOf q)) : (l.map dateOf).Nodup := by
  rw [List.Nodup, List.pairwise_map]
  exact hasc.imp (fun h => ne_of_lt h)

theorem lifecycleMaxDate_eq (l : List LifeRaw)
    (hlt : maxIdx l < l.length) :
    lifecycleMaxDate l = dateOf (l.get ⟨maxIdx l, hlt⟩) := by
  rw [lifecycleMaxDate, find?_eq_getElem_findIdx _ _ hlt]
  rfl

theorem maxIdx_lt_length (l : List LifeRaw) (hne : l ≠ []) : maxIdx l < l.length := by
  apply List.findIdx_lt_length_of_exists
  have hmem : maxQ (l.map LifeRaw.heat_score) ∈ l.map LifeRaw.heat_score :=
    maxQ_mem _ (by simpa using hne)
  rcases List.mem_map.mp hmem with ⟨p, hp, hval⟩
  exact ⟨p, hp, by simp [hval]⟩

/-- Characterization of `get_keyword_lifecycle` on a non-empty input whose
samples are daily points with strictly ascending dates: the output labels the
input's dates, in order, with `lifecyclePhase`, the peak date is the date of
the first (= earliest) sample of maximal heat, and `death_date` is present
exactly when there is more than one day. -/
theorem getKeywordLifecycle_eq (l : List LifeRaw) (hne : l ≠ [])
    (hasc : l.Pairwise (fun p q => dateOf p < dateOf q)) :
    getKeywordLifecycle l = some
      { data_points := l.enum.map (fun ip =>
          (dateOf ip.2, ip.2.heat_score,
            lifecyclePhase l.length ip.1 (dateOf ip.2) (lifecycleMaxDate l)))
        birth_date := (l.map dateOf).headD []
        peak_date := lifecycleMaxDate l
        death_date := if 1 < l.length then some ((l.map dateOf).getLast?.getD []) else none
        total_days := l.length } := by
  have hkeys : (l.map (fun p => (dateOf p, p.heat_score))).map Prod.fst = l.map dateOf := by
    rw [List.map_map]
    rfl
  have hsorted :
      pySortAsc id ((l.map (fun p => (dateOf p, p.heat_score))).map Prod.fst) = l.map dateOf := by
    rw [hkeys]
    apply pySortK_of_sorted
    rw [List.pairwise_map]
    exact hasc.imp (fun h => le_of_lt h)
  have hmd : maxDate (l.map (fun p => (dateOf p, p.heat_score))) = lifecycleMaxDate l := by
    rw [maxDate, lifecycleMaxDate, List.find?_map, List.map_map]
    rw [Option.map_map]
    rfl
  have hlen : (l.map dateOf).length = l.length := List.length_map _ _
  have hnodup : ((l.map (fun p => (dateOf p, p.heat_score))).map Prod.fst).Nodup := by
    rw [hkeys]
    exact dates_nodup l hasc
  unfold getKeywordLifecycle
  rw [if_neg hne, buildDailyHeat_eq l hasc]
  simp only [hsorted, hmd, hlen]
  congr 1
  refine LifecycleData.mk.injEq .. ▸ ?_
  refine ⟨?_, rfl, rfl, rfl, rfl⟩
  rw [List.enum_map]
  rw [List.map_map]
  apply List.map_congr_left
  intro ip hip
  have hget : l[ip.1]? = some ip.2 := List.mem_enum_iff_getElem?.mp hip
  have hmem : ip.2 ∈ l := by
    rcases List.getElem?_eq_some.mp hget with ⟨hlt, hval⟩
    exact hval ▸ List.getElem_mem hlt
  have hlook : dictLookup (l.map (fun p => (dateOf p, p.heat_score))) (dateOf ip.2) =
      some ip.2.heat_score := by
    apply (mem_iff_dictLookup _ _ _ hnodup).mp
    exact List.mem_map.mpr ⟨ip.2, hmem, rfl⟩
  simp [Prod.map, hlook]

theorem lifecyclePhase_eq_amendedPhaseRule (n i : ℕ) (d md : List Char) :
    lifecyclePhase n i d md = amendedPhaseRule n i d md := by
  have h1 : ((i : ℚ) < (n : ℚ) * 0.2) ↔ ((i : ℚ) < (0.2 : ℚ) * n) := by rw [mul_comm]
  have h4 : ((i : ℚ) > (n : ℚ) * 0.8) ↔ (Nat.floor ((0.8 : ℚ) * n) < i) := by
    rw [gt_iff_lt, mul_comm (n : ℚ) (0.8 : ℚ)]
    exact (Nat.floor_lt (by positivity)).symm
  simp only [lifecyclePhase, amendedPhaseRule, h1, h4]

theorem lifecyclePhase_ne_peak_of_ne (n i : ℕ) (d md : List Char) (h : d ≠ md) :
    lifecyclePhase n i d md ≠ "peak" := by
  unfold lifecyclePhase
  by_cases h1 : (i : ℚ) < (n : ℚ) * 0.2
  · simp [h1]
  · by_cases h2 : d < md
    · simp [h1, h2]
    · by_cases h4 : (i : ℚ) > (n : ℚ) * 0.8
      · simp [h1, h2, h, h4]
      · simp [h1, h2, h, h4]

theorem lifecyclePhase_self (n i : ℕ) (md : List Char) :
    lifecyclePhase n i md md = if (i : ℚ) < (n : ℚ) * 0.2 then "birth" else "peak" := by
  unfold lifecyclePhase
  by_cases h1 : (i : ℚ) < (n : ℚ) * 0.2
  · simp [h1]
  · simp [h1, lt_irrefl]

theorem date_eq_maxDate_iff (l : List LifeRaw) (hne : l ≠ [])
    (hasc : l.Pairwise (fun p q => dateOf p < dateOf q)) (i : Fin l.length) :
    dateOf (l.get i) = lifecycleMaxDate l ↔ (i : ℕ) = maxIdx l := by
  have hlt := maxIdx_lt_length l hne
  rw [lifecycleMaxDate_eq l hlt]
  constructor
  · intro h
    by_contra hne'
    have hget := List.pairwise_iff_get.mp hasc
    rcases Nat.lt_trichotomy (i : ℕ) (maxIdx l) with h' | h' | h'
    · exact absurd h (ne_of_lt (hget i ⟨maxIdx l, hlt⟩ h'))
    · exact hne' h'
    · exact absurd h.symm (ne_of_lt (hget ⟨maxIdx l, hlt⟩ i h'))
  · intro h
    have heq : i = (⟨maxIdx l, hlt⟩ : Fin l.length) := Fin.ext h
    rw [heq]

/-! ## Claim theorems: lifecycle segmentation -/
/-- C4 (amended): on a non-empty input of daily points with strictly ascending
dates, the phase of the point at index `i` with date `d` is decided by the
ordered branch chain with branch 1 being `i < 0.2·N` (the exact comparison the
code performs; the claim's `i < floor(0.2·N)` differs whenever `N` is not a
multiple of 5, see the counterexample), branch 2 `d < peak_date`, branch 3
`d = peak_date`, branch 4 `i > floor(0.8·N)` (this floor form does agree with
the code), else decline; `peak_date` is the earliest date of maximal heat. -/
theorem lifecycle_phase_rule (l : List LifeRaw) (hne : l ≠ [])
    (hasc : l.Pairwise (fun p q => dateOf p < dateOf q)) :
    (getKeywordLifecycle l).map (fun D => D.data_points.map (fun x => x.2.2)) =
      some (l.enum.map (fun ip =>
        amendedPhaseRule l.length ip.1 (dateOf ip.2) (lifecycleMaxDate l))) := by
  rw [getKeywordLifecycle_eq l hne hasc]
  rw [Option.map_some']
  congr 1
  rw [List.map_map]
  apply List.map_congr_left
  intro ip _
  exact lifecyclePhase_eq_amendedPhaseRule l.length ip.1 (dateOf ip.2) (lifecycleMaxDate l)

set_option maxRecDepth 8000 in
/-- Witness for C4: the rule instantiated at the claim's own N=10 example,
whose phases come out exactly as the claim lists them. -/
theorem lifecycle_phase_rule_witness :
    (getKeywordLifecycle c4Pts10).map (fun D => D.data_points.map (fun x => x.2.2)) =
        some (c4Pts10.enum.map (fun ip =>
          amendedPhaseRule c4Pts10.length ip.1 (dateOf ip.2) (lifecycleMaxDate c4Pts10))) ∧
      (getKeywordLifecycle c4Pts10).map (fun D => D.data_points.map (fun x => x.2.2)) =
        some ["birth", "birth", "rise", "peak", "decline", "decline", "decline", "decline",
          "decline", "death"] := by
  constructor
  · exact lifecycle_phase_rule c4Pts10 (by decide) (by decide)
  · with_unfolding_all decide

set_option maxRecDepth 8000 in
/-- Counterexample for C4 as stated: at N=11, index 2, the claim's branch 1
(`i < floor(0.2·11) = 2`) does not fire and its rule yields "rise", but the
code compares `2 < 11·0.2 = 2.2` and yields "birth". -/
theorem lifecycle_floor_counterexample :
    lifecyclePhase 11 2 ("2024-01-03".toList) ("2024-01-11".toList) = "birth" ∧
      specPhaseRule 11 2 ("2024-01-03".toList) ("2024-01-11".toList) = "rise" ∧
      (getKeywordLifecycle c4Pts11).map (fun D => D.data_points.map (fun x => x.2.2)) =
        some ["birth", "birth", "birth", "rise", "rise", "rise", "rise", "rise", "rise",
          "rise", "peak"] := by
  refine ⟨by with_unfolding_all decide, by with_unfolding_all decide, ?_⟩
  with_unfolding_all decide

/-- C5 (amended): on a non-empty input of daily points with strictly ascending
(pairwise-distinct) dates, the lifecycle points carry the input dates in the
same order and length (no gaps or overlaps); the number of points labelled
"peak" is one, unless the earliest maximum-heat index `i₀` falls in the birth
range (`i₀ < 0.2·N`), in which case it is zero (the birth branch shadows the
peak branch); and `death_date` is reported iff `N > 1`. -/
theorem lifecycle_partition_peak (l : List LifeRaw) (hne : l ≠ [])
    (hasc : l.Pairwise (fun p q => dateOf p < dateOf q)) :
    ((getKeywordLifecycle l).map (fun D => D.data_points.map Prod.fst) =
        some (l.map dateOf)) ∧
      ((getKeywordLifecycle l).map
          (fun D => D.data_points.countP (fun x => x.2.2 == "peak")) =
        some (if (maxIdx l : ℚ) < (l.length : ℚ) * 0.2 then 0 else 1)) ∧
      ((getKeywordLifecycle l).map (fun D => D.death_date.isSome) =
        some (decide (1 < l.length))) := by
  have hchar := getKeywordLifecycle_eq l hne hasc
  have hlt := maxIdx_lt_length l hne
  refine ⟨?_, ?_, ?_⟩
  · rw [hchar, Option.map_some']
    congr 1
    rw [List.map_map]
    have : ((fun x : List Char × ℚ × String => x.1) ∘ fun ip : ℕ × LifeRaw =>
        (dateOf ip.2, ip.2.heat_score,
          lifecyclePhase l.length ip.1 (dateOf ip.2) (lifecycleMaxDate l))) =
        dateOf ∘ Prod.snd := rfl
    rw [this, ← List.map_map, List.enum_map_snd]
  · rw [hchar, Option.map_some']
    congr 1
    rw [List.countP_map]
    by_cases hb : (maxIdx l : ℚ) < (l.length : ℚ) * 0.2
    · rw [if_pos hb]
      apply List.countP_eq_zero.mpr
      intro ip hip
      have hget : l[ip.1]? = some ip.2 := List.mem_enum_iff_getElem?.mp hip
      rcases List.getElem?_eq_some.mp hget with ⟨hiplt, hval⟩
      simp only [Function.comp]
      by_cases hi : ip.1 = maxIdx l
      · have hd : dateOf ip.2 = lifecycleMaxDate l := by
          rw [← hval]
          exact (date_eq_maxDate_iff l hne hasc ⟨ip.1, hiplt⟩).mpr hi
        rw [hd, lifecyclePhase_self, hi, if_pos hb]
        decide
      · have hd : dateOf ip.2 ≠ lifecycleMaxDate l := by
          rw [← hval]
          intro h
          exact hi ((date_eq_maxDate_iff l hne hasc ⟨ip.1, hiplt⟩).mp h)
        have := lifecyclePhase_ne_peak_of_ne l.length ip.1 (dateOf ip.2)
          (lifecycleMaxDate l) hd
        simpa using this
    · rw [if_neg hb]
      have hcong : List.countP
          ((fun x : List Char × ℚ × String => x.2.2 == "peak") ∘ fun ip : ℕ × LifeRaw =>
            (dateOf ip.2, ip.2.heat_score,
              lifecyclePhase l.length ip.1 (dateOf ip.2) (lifecycleMaxDate l))) l.enum =
          List.countP (fun ip : ℕ × LifeRaw => ip.1 == maxIdx l) l.enum := by
        apply List.countP_congr
        intro ip hip
        have hget : l[ip.1]? = some ip.2 := List.mem_enum_iff_getElem?.mp hip
        rcases List.getElem?_eq_some.mp hget with ⟨hiplt, hval⟩
        simp only [Function.comp, beq_iff_eq]
        constructor
        · intro h
          by_contra hi
          have hd : dateOf ip.2 ≠ lifecycleMaxDate l := by
            rw [← hval]
            intro h'
            exact hi ((date_eq_maxDate_iff l hne hasc ⟨ip.1, hiplt⟩).mp h')
          exact lifecyclePhase_ne_peak_of_ne l.length ip.1 (dateOf ip.2)
            (lifecycleMaxDate l) hd h
        · intro h
          have hd : dateOf ip.2 = lifecycleMaxDate l := by
            rw [← hval]
            exact (date_eq_maxDate_iff l hne hasc ⟨ip.1, hiplt⟩).mpr h
          rw [hd, lifecyclePhase_self, h, if_neg hb]
      rw [hcong]
      have hcount : List.countP (fun ip : ℕ × LifeRaw => ip.1 == maxIdx l) l.enum =
          List.count (maxIdx l) (l.enum.map Prod.fst) := by
        rw [List.count, List.countP_map]
        rfl
      rw [hcount, List.enum_map_fst]
      exact List.count_eq_one_of_mem (List.nodup_range _) (List.mem_range.mpr hlt)
  · rw [hchar, Option.map_some']
    by_cases h : 1 < l.length <;> simp [h]

/-- Witness for C5 at a concrete three-day input. -/
theorem lifecycle_partition_peak_witness :
    ((getKeywordLifecycle c5Pts3).map (fun D => D.data_points.map Prod.fst) =
        some (c5Pts3.map dateOf)) ∧
      ((getKeywordLifecycle c5Pts3).map
          (fun D => D.data_points.countP (fun x => x.2.2 == "peak")) =
        some (if (maxIdx c5Pts3 : ℚ) < (c5Pts3.length : ℚ) * 0.2 then 0 else 1)) ∧
      ((getKeywordLifecycle c5Pts3).map (fun D => D.death_date.isSome) =
        some (decide (1 < c5Pts3.length))) :=
  lifecycle_partition_peak c5Pts3 (by decide) (by decide)

/-- Counterexample for C5 as stated: a single-day series (non-empty, distinct
ascending dates) gets the phase list ["birth"] and zero "peak" points, not
exactly one. -/
theorem lifecycle_peak_missing_counterexample :
    (getKeywordLifecycle [{ timestamp := "2024-01-01", heat_score := 5 }]).map
        (fun D => (D.data_points.map (fun x => x.2.2),
          D.data_points.countP (fun x => x.2.2 == "peak"), D.death_date.isSome)) =
      some (["birth"], 0, false) ∧ (0 : ℕ) ≠ 1 := by
  refine ⟨by with_unfolding_all decide, by decide⟩

/-! ## Claim theorems: RealScore -/
/-- C2 (amended): on two parseable timestamps the longevity factor is
`log2(days_active + 2)` where `days_active` is the floored number of whole
days between them — not `log2(days_active + 1)` as claimed, which is
inconsistent with the claim's own anchor `days_active = 0 ⇒ L = 1.0`; that
anchor does hold.  On any malformed or missing timestamp the function returns
the neutral `1.0` instead of raising, so scoring one bad item never aborts
the rest. -/
theorem calculate_longevity_factor_spec (first_seen last_seen : String) :
    (∀ tf tl : ℤ, parseIsoTimestamp first_seen = some tf →
      parseIsoTimestamp last_seen = some tl →
      calculate_longevity_factor first_seen last_seen =
          Real.logb 2 (((Int.fdiv (tl - tf) 86400 : ℤ) : ℝ) + 2) ∧
        (Int.fdiv (tl - tf) 86400 = 0 →
          calculate_longevity_factor first_seen last_seen = 1)) ∧
      ((parseIsoTimestamp first_seen = none ∨ parseIsoTimestamp last_seen = none) →
        calculate_longevity_factor first_seen last_seen = 1) := by
  constructor
  · intro tf tl h1 h2
    have heq : calculate_longevity_factor first_seen last_seen =
        Real.logb 2 (((Int.fdiv (tl - tf) 86400 + 1 : ℤ) : ℝ) + 1) := by
      simp [calculate_longevity_factor, h1, h2]
    constructor
    · rw [heq]
      congr 1
      push_cast
      ring
    · intro h0
      rw [heq, h0]
      norm_num
  · intro h
    rcases h with h | h
    · cases h2 : parseIsoTimestamp last_seen <;>
        simp [calculate_longevity_factor, h, h2]
    · cases h1 : parseIsoTimestamp first_seen <;>
        simp [calculate_longevity_factor, h, h1]

/-- Witness for C2: same-day timestamps parse, differ by zero whole days, and
score the neutral longevity 1. -/
theorem calculate_longevity_factor_spec_witness :
    calculate_longevity_factor "2024-01-01" "2024-01-01" = 1 :=
  ((calculate_longevity_factor_spec "2024-01-01" "2024-01-01").1
    1704067200 1704067200 (by decide) (by decide)).2 (by decide)

/-- Counterexample for C2 as stated: one whole day apart gives
`log2(3) ≈ 1.585`, while the claimed formula `log2(days_active + 1)` gives
`log2(2) = 1`. -/
theorem longevity_offbyone_counterexample :
    calculate_longevity_factor "2024-01-01" "2024-01-02" = Real.logb 2 3 ∧
      Real.logb 2 (1 + 1) = 1 ∧ Real.logb 2 3 ≠ Real.logb 2 (1 + 1) := by
  refine ⟨?_, ?_, ?_⟩
  · have heq : calculate_longevity_factor "2024-01-01" "2024-01-02" =
        Real.logb 2 (((Int.fdiv ((1704153600 : ℤ) - 1704067200) 86400 + 1 : ℤ) : ℝ) + 1) := by
      simp [calculate_longevity_factor, show parseIsoTimestamp "2024-01-01" =
        some 1704067200 from by decide, show parseIsoTimestamp "2024-01-02" =
        some 1704153600 from by decide]
    rw [heq, show Int.fdiv ((1704153600 : ℤ) - 1704067200) 86400 + 1 = 2 from by decide]
    norm_num
  · rw [show ((1 : ℝ) + 1) = 2 from by norm_num]
    exact Real.logb_self_eq_one (by norm_num)
  · have hlt : Real.logb 2 (1 + 1) < Real.logb 2 3 := by
      apply Real.logb_lt_logb (by norm_num)
      · norm_num
      · norm_num
    exact fun h => absurd (h ▸ hlt) (lt_irrefl _)

/-- C10: `calculate_real_score` is total on every input dict (its Lean model
is a total function), applying the documented defaults: a missing
`raw_heat_score` scores exactly 0, a missing `platform_count` is scored with
the single-platform multiplier 0.3, and any `platform_count ≤ 0` (including
negative values) yields multiplier 0 and score 0. -/
theorem calculate_real_score_defaults (td : TrendData) :
    (td.raw_heat_score = none → calculate_real_score td = 0) ∧
      (td.platform_count = none →
        calculate_platform_multiplier (td.platform_count.getD 1) = 3/10) ∧
      ∀ pc : ℤ, td.platform_count = some pc → pc ≤ 0 →
        calculate_platform_multiplier pc = 0 ∧ calculate_real_score td = 0 := by
  refine ⟨?_, ?_, ?_⟩
  · intro h
    simp [calculate_real_score, h, round2R]
  · intro h
    simp [h, calculate_platform_multiplier]
  · intro pc hpc hle
    have hmul : calculate_platform_multiplier pc = 0 := by
      simp [calculate_platform_multiplier, hle]
    refine ⟨hmul, ?_⟩
    simp [calculate_real_score, hpc, hmul, round2R]

/-- Witness for C10: a dict with no `raw_heat_score` scores 0, and a dict
with `platform_count = -1` gets multiplier 0 and score 0. -/
theorem calculate_real_score_defaults_witness :
    calculate_real_score { first_seen := some "2024-01-01" } = 0 ∧
      calculate_platform_multiplier (-1) = 0 ∧
      calculate_real_score { raw_heat_score := some 100, platform_count := some (-1) } = 0 := by
  refine ⟨?_, ?_, ?_⟩
  · exact (calculate_real_score_defaults { first_seen := some "2024-01-01" }).1 rfl
  · exact ((calculate_real_score_defaults
      { raw_heat_score := some 100, platform_count := some (-1) }).2.2 (-1) rfl
      (by norm_num)).1
  · exact ((calculate_real_score_defaults
      { raw_heat_score := some 100, platform_count := some (-1) }).2.2 (-1) rfl
      (by norm_num)).2

theorem dictLookup_append_of_none (l1 l2 : List (κ × α)) (k : κ)
    (h : dictLookup l1 k = none) : dictLookup (l1 ++ l2) k = dictLookup l2 k := by
  induction l1 with
  | nil => simp
  | cons hd tl ih =>
    obtain ⟨k₀, v₀⟩ := hd
    by_cases h0 : k₀ = k
    · simp [dictLookup, h0] at h
    · simp only [dictLookup, if_neg h0] at h
      simp only [List.cons_append, dictLookup, if_neg h0]
      exact ih h

theorem dictLookup_append_of_some (l1 l2 : List (κ × α)) (k : κ) (v : α)
    (h : dictLookup l1 k = some v) : dictLookup (l1 ++ l2) k = some v := by
  induction l1 with
  | nil => simp [dictLookup] at h
  | cons hd tl ih =>
    obtain ⟨k₀, v₀⟩ := hd
    by_cases h0 : k₀ = k
    · simp only [dictLookup, if_pos h0] at h
      simp [List.cons_append, dictLookup, h0, h]
    · simp only [dictLookup, if_neg h0] at h
      simp only [List.cons_append, dictLookup, if_neg h0]
      exact ih h

theorem isCacheValid_congr (st s : FMState) (now : ℤ) (p : String)
    (h : dictLookup st.cacheTime p = dictLookup s.cacheTime p) :
    isCacheValid st now p = isCacheValid s now p := by
  simp only [isCacheValid, h]

theorem fetch_single_state_at_ne (st : FMState) (now : ℤ)
    (fetchFn : String → Except String (List RawItem)) (q : String) (limit : ℕ)
    (use_cache : Bool) (sd : FMState × List RawItem)
    (h : fetch_single_platform st now fetchFn q limit use_cache = Except.ok sd)
    (p : String) (hq : q ≠ p) :
    dictLookup sd.1.cache p = dictLookup st.cache p ∧
      dictLookup sd.1.cacheTime p = dictLookup st.cacheTime p := by
  unfold fetch_single_platform at h
  by_cases h1 : q ∉ st.fetchers
  · simp [h1] at h
  · rw [if_neg (by simpa using h1)] at h
    by_cases h2 : (use_cache && isCacheValid st now q) = true
    · rw [if_pos h2] at h
      obtain rfl : (st, ((dictLookup st.cache q).getD []).take limit) = sd := by
        simpa using h
      exact ⟨rfl, rfl⟩
    · rw [if_neg h2] at h
      cases hf : fetchFn q with
      | error e => rw [hf] at h; exact absurd h (by simp)
      | ok data =>
        rw [hf] at h
        obtain rfl :
            ({ st with cache := dictSet st.cache q data
                       cacheTime := dictSet st.cacheTime q now }, data) = sd := by
          simpa using h
        exact ⟨dictLookup_dictSet_ne _ _ _ _ hq, dictLookup_dictSet_ne _ _ _ _ hq⟩

theorem fetch_all_aux (s : FMState) (now : ℤ)
    (fetchFn : String → Except String (List RawItem)) (limit : ℕ) (use_cache : Bool)
    (p : String) (e : String) (hfail : fetchFn p = Except.error e)
    (hnc : use_cache = false ∨ isCacheValid s now p = false) :
    ∀ (platforms : List String) (st : FMState) (acc : List (String × List RawItem)),
      dictLookup st.cache p = dictLookup s.cache p →
      dictLookup st.cacheTime p = dictLookup s.cacheTime p →
      dictLookup (platforms.foldl (fetchStep now fetchFn limit use_cache) (st, acc)).1.cache p =
          dictLookup s.cache p ∧
        dictLookup
            (platforms.foldl (fetchStep now fetchFn limit use_cache) (st, acc)).1.cacheTime p =
          dictLookup s.cacheTime p ∧
        (platforms.foldl (fetchStep now fetchFn limit use_cache) (st, acc)).2.map Prod.fst =
          acc.map Prod.fst ++ platforms ∧
        (dictLookup acc p = none → p ∈ platforms →
          dictLookup (platforms.foldl (fetchStep now fetchFn limit use_cache) (st, acc)).2 p =
            some []) ∧
        ∀ v, dictLookup acc p = some v →
          dictLookup (platforms.foldl (fetchStep now fetchFn limit use_cache) (st, acc)).2 p =
            some v := by
  intro platforms
  induction platforms with
  | nil =>
    intro st acc hc ht
    exact ⟨hc, ht, by simp, fun _ hmem => absurd hmem (by simp), fun v hv => hv⟩
  | cons q rest ih =>
    intro st acc hc ht
    by_cases hq : q = p
    · subst hq
      have hcond : (use_cache && isCacheValid st now q) = false := by
        rcases hnc with h' | h'
        · simp [h']
        · rw [isCacheValid_congr st s now q ht, h']
          simp
      have hstep : fetchStep now fetchFn limit use_cache (st, acc) q = (st, acc ++ [(q, [])]) := by
        unfold fetchStep fetch_single_platform
        by_cases hreg : q ∉ st.fetchers
        · simp [hreg]
        · rw [if_neg (by simpa using hreg), if_neg (by simp [hcond]), hfail]
      rw [List.foldl_cons, hstep]
      obtain ⟨g1, g2, g3, g4, g5⟩ := ih st (acc ++ [(q, [])]) hc ht
      refine ⟨g1, g2, by simpa using g3, ?_, ?_⟩
      · intro hnone _
        apply g5 []
        rw [dictLookup_append_of_none _ _ _ hnone]
        simp [dictLookup]
      · intro v hv
        apply g5 v
        exact dictLookup_append_of_some _ _ _ _ hv
    · have hsingle : dictLookup [(q, [])] p = (none : Option (List RawItem)) := by
        simp [dictLookup, hq]
      cases hstep : fetch_single_platform st now fetchFn q limit use_cache with
      | error err =>
        have hstep' : fetchStep now fetchFn limit use_cache (st, acc) q =
            (st, acc ++ [(q, [])]) := by
          unfold fetchStep
          rw [hstep]
        rw [List.foldl_cons, hstep']
        obtain ⟨g1, g2, g3, g4, g5⟩ := ih st (acc ++ [(q, [])]) hc ht
        refine ⟨g1, g2, by simpa using g3, ?_, ?_⟩
        · intro hnone hmem
          rcases List.mem_cons.mp hmem with h' | h'
          · exact absurd h'.symm hq
          · exact g4 (by rw [dictLookup_append_of_none _ _ _ hnone]; exact hsingle) h'
        · intro v hv
          exact g5 v (dictLookup_append_of_some _ _ _ _ hv)
      | ok sd =>
        have hat := fetch_single_state_at_ne st now fetchFn q limit use_cache sd hstep p hq
        have hstep' : fetchStep now fetchFn limit use_cache (st, acc) q =
            (sd.1, acc ++ [(q, sd.2)]) := by
          unfold fetchStep
          rw [hstep]
        rw [List.foldl_cons, hstep']
        obtain ⟨g1, g2, g3, g4, g5⟩ := ih sd.1 (acc ++ [(q, sd.2)])
          (hat.1.trans hc) (hat.2.trans ht)
        refine ⟨g1, g2, by simpa using g3, ?_, ?_⟩
        · intro hnone hmem
          rcases List.mem_cons.mp hmem with h' | h'
          · exact absurd h'.symm hq
          · exact g4 (by
              rw [dictLookup_append_of_none _ _ _ hnone]
              simp [dictLookup, hq]) h'
        · intro v hv
          exact g5 v (dictLookup_append_of_some _ _ _ _ hv)

/-- C9: when a platform's fetch raises (or times out) in a cycle in which the
fetch is actually attempted (cache disabled or expired for that platform),
the cached payload and the cache timestamp of that platform are left exactly
as they were, the platform contributes an empty item list for the cycle, the
cycle returns normally with one entry per registered platform, and the
single-platform path surfaces the failure as an error without touching the
state. -/
theorem fetch_failure_isolated (s : FMState) (now : ℤ)
    (fetchFn : String → Except String (List RawItem)) (limit : ℕ) (use_cache : Bool)
    (p : String) (e : String) (hp : p ∈ s.fetchers)
    (hfail : fetchFn p = Except.error e)
    (hnc : use_cache = false ∨ isCacheValid s now p = false) :
    dictLookup (fetch_all_platforms s now fetchFn limit use_cache).1.cache p =
        dictLookup s.cache p ∧
      dictLookup (fetch_all_platforms s now fetchFn limit use_cache).1.cacheTime p =
        dictLookup s.cacheTime p ∧
      dictLookup (fetch_all_platforms s now fetchFn limit use_cache).2 p = some [] ∧
      (fetch_all_platforms s now fetchFn limit use_cache).2.map Prod.fst = s.fetchers ∧
      fetch_single_platform s now fetchFn p limit use_cache = Except.error e := by
  obtain ⟨g1, g2, g3, g4, _⟩ :=
    fetch_all_aux s now fetchFn limit use_cache p e hfail hnc s.fetchers s [] rfl rfl
  refine ⟨g1, g2, g4 rfl hp, by simpa using g3, ?_⟩
  have hcond : (use_cache && isCacheValid s now p) = false := by
    rcases hnc with h' | h'
    · simp [h']
    · simp [h']
  unfold fetch_single_platform
  rw [if_neg (by simpa using hp), if_neg (by simp [hcond]), hfail]

/-- Witness for C9 at the concrete state above (time 1000, so the "weibo"
entry is long expired): the stale payload survives the failed refresh. -/
theorem fetch_failure_isolated_witness :
    dictLookup (fetch_all_platforms c9State 1000 c9Fetch 30 true).1.cache "weibo" =
        some [{ keyword := "old", raw_heat_score := 1, timestamp := "t", metadata := [] }] ∧
      dictLookup (fetch_all_platforms c9State 1000 c9Fetch 30 true).2 "weibo" = some [] := by
  have h := fetch_failure_isolated c9State 1000 c9Fetch 30 true "weibo" "boom"
    (by decide) (by rfl) (Or.inr (by decide))
  refine ⟨?_, h.2.2.1⟩
  rw [h.1]
  decide

/-! ## Claim theorems: archive burst score and sorting -/
theorem round2R_nonneg (x : ℝ) (hx : 0 ≤ x) : 0 ≤ round2R x := by
  unfold round2R
  apply div_nonneg _ (by norm_num)
  have : (0 : ℤ) ≤ round (100 * x) := by
    rw [round_eq]
    apply Int.floor_nonneg.mpr
    nlinarith
  exact_mod_cast this

theorem daysWeightSpec_nonneg (d : ℕ) : 0 ≤ daysWeightSpec d := by
  unfold daysWeightSpec
  split_ifs with h1 h2 h3
  · norm_num
  · norm_num
  · norm_num
  · have hd : (1 : ℝ) < d := by
      have : 10 < d := by omega
      exact_mod_cast by omega
    have hld : 0 < Real.log d := Real.log_pos hd
    have hl5 : 0 < Real.log 5 := Real.log_pos (by norm_num)
    positivity

theorem lifespanPenaltySpec_nonneg (ls : ℤ) : 0 ≤ lifespanPenaltySpec ls := by
  unfold lifespanPenaltySpec
  split_ifs <;> norm_num

/-- C6: for every surviving archive keyword (`total_appearances ≥ 1`,
`days_on_list ≥ 1`, `lifespan_days ≥ 1`) the burst score is exactly
`round2(total × days_weight(days) × (total/days) × lifespan_penalty(lifespan))`
with the claimed weight and penalty tables; it is always non-negative; and a
single appearance scores exactly 0.30. -/
theorem calculate_burst_score_spec (t d pk : ℕ) (ls : ℤ)
    (ht : 1 ≤ t) (hd : 1 ≤ d) (hls : 1 ≤ ls) :
    calculate_burst_score t d pk ls =
        round2R ((t : ℝ) * daysWeightSpec d * ((t : ℝ) / d) * lifespanPenaltySpec ls) ∧
      0 ≤ calculate_burst_score t d pk ls ∧
      calculate_burst_score 1 1 1 1 = 3/10 := by
  have heq : calculate_burst_score t d pk ls =
      round2R ((t : ℝ) * daysWeightSpec d * ((t : ℝ) / d) * lifespanPenaltySpec ls) := by
    unfold calculate_burst_score daysWeightSpec lifespanPenaltySpec
    rw [if_neg (by omega : ¬d = 0)]
  refine ⟨heq, ?_, ?_⟩
  · rw [heq]
    apply round2R_nonneg
    have h1 : (0 : ℝ) ≤ t := by positivity
    have h2 : (0 : ℝ) ≤ (t : ℝ) / d := by positivity
    have h3 := daysWeightSpec_nonneg d
    have h4 := lifespanPenaltySpec_nonneg ls
    positivity
  · unfold calculate_burst_score round2R
    norm_num

/-- Witness for C6 at the single-appearance point. -/
theorem calculate_burst_score_spec_witness :
    calculate_burst_score 1 1 1 1 =
        round2R (((1 : ℕ) : ℝ) * daysWeightSpec 1 * (((1 : ℕ) : ℝ) / ((1 : ℕ) : ℝ)) *
          lifespanPenaltySpec 1) ∧
      0 ≤ calculate_burst_score 1 1 1 1 ∧
      calculate_burst_score 1 1 1 1 = 3/10 :=
  calculate_burst_score_spec 1 1 1 1 (by norm_num) (by norm_num) (by norm_num)

/-- C7 (amended): the archive statistics are sorted descending by the key the
`sort_by` mode selects, and entries equal on that key keep their
first-appearance (accumulation) order — Python's sort is stable — not an
order by keyword string. -/
theorem aggregate_yearly_stats_sorted (bl : String → Bool)
    (items : List HotSearchItem) (filter_blacklist : Bool) (sort_by : String) :
    (sort_by = "burst" →
      (aggregate_yearly_stats bl items filter_blacklist sort_by).Pairwise
          (fun a b => b.burst_score ≤ a.burst_score) ∧
        ∀ k : ℝ,
          (aggregate_yearly_stats bl items filter_blacklist sort_by).filter
              (fun s => decide (s.burst_score = k)) =
            (yearlyResults bl filter_blacklist items).filter
              (fun s => decide (s.burst_score = k))) ∧
      (sort_by = "days" →
        (aggregate_yearly_stats bl items filter_blacklist sort_by).Pairwise
            (fun a b => b.days_on_list ≤ a.days_on_list) ∧
          ∀ k : ℕ,
            (aggregate_yearly_stats bl items filter_blacklist sort_by).filter
                (fun s => decide (s.days_on_list = k)) =
              (yearlyResults bl filter_blacklist items).filter
                (fun s => decide (s.days_on_list = k))) ∧
      (sort_by ≠ "burst" → sort_by ≠ "days" →
        (aggregate_yearly_stats bl items filter_blacklist sort_by).Pairwise
            (fun a b => b.total_appearances ≤ a.total_appearances) ∧
          ∀ k : ℕ,
            (aggregate_yearly_stats bl items filter_blacklist sort_by).filter
                (fun s => decide (s.total_appearances = k)) =
              (yearlyResults bl filter_blacklist items).filter
                (fun s => decide (s.total_appearances = k))) := by
  refine ⟨?_, ?_, ?_⟩
  · intro h
    subst h
    constructor
    · exact pySortK_sorted (fun a b : ℝ => a ≤ b) YearlyTrendItem.burst_score
        (fun a b c hab hbc => le_trans hab hbc) le_total _
    · intro k
      exact filter_pySortK (fun a b : ℝ => a ≤ b) YearlyTrendItem.burst_score
        (fun a => le_refl a) (fun a b c hab hbc => le_trans hab hbc) le_total k _
  · intro h
    subst h
    constructor
    · exact pySortK_sorted (fun a b : ℕ => a ≤ b) YearlyTrendItem.days_on_list
        (fun a b c hab hbc => le_trans hab hbc) le_total _
    · intro k
      exact filter_pySortK (fun a b : ℕ => a ≤ b) YearlyTrendItem.days_on_list
        (fun a => le_refl a) (fun a b c hab hbc => le_trans hab hbc) le_total k _
  · intro h1 h2
    have hif : aggregate_yearly_stats bl items filter_blacklist sort_by =
        pySortDesc YearlyTrendItem.total_appearances
          (yearlyResults bl filter_blacklist items) := by
      unfold aggregate_yearly_stats
      rw [if_neg h1, if_neg h2]
    rw [hif]
    constructor
    · exact pySortK_sorted (fun a b : ℕ => a ≤ b) YearlyTrendItem.total_appearances
        (fun a b c hab hbc => le_trans hab hbc) le_total _
    · intro k
      exact filter_pySortK (fun a b : ℕ => a ≤ b) YearlyTrendItem.total_appearances
        (fun a => le_refl a) (fun a b c hab hbc => le_trans hab hbc) le_total k _

/-- Witness for C7: the "days" mode at a concrete two-item corpus. -/
theorem aggregate_yearly_stats_sorted_witness :
    (aggregate_yearly_stats (fun _ => false)
          [⟨"x", "u", "2024-01-01"⟩, ⟨"y", "u", "2024-01-02"⟩] false "days").Pairwise
        (fun a b => b.days_on_list ≤ a.days_on_list) ∧
      ∀ k : ℕ,
        (aggregate_yearly_stats (fun _ => false)
              [⟨"x", "u", "2024-01-01"⟩, ⟨"y", "u", "2024-01-02"⟩] false "days").filter
            (fun s => decide (s.days_on_list = k)) =
          (yearlyResults (fun _ => false) false
              [⟨"x", "u", "2024-01-01"⟩, ⟨"y", "u", "2024-01-02"⟩]).filter
            (fun s => decide (s.days_on_list = k)) :=
  (aggregate_yearly_stats_sorted (fun _ => false)
    [⟨"x", "u", "2024-01-01"⟩, ⟨"y", "u", "2024-01-02"⟩] false "days").2.1 rfl

/-- Counterexample for C7 as stated: two keywords tie on the selected key
(total appearances 1 each); the output keeps first-appearance order
["b", "a"], not the claimed keyword-string order ["a", "b"]. -/
theorem aggregate_tiebreak_counterexample :
    (aggregate_yearly_stats (fun _ => false)
          [⟨"b", "u", "2024-01-01"⟩, ⟨"a", "u", "2024-01-01"⟩] false "total").map
        (fun s => (s.keyword, s.total_appearances)) = [("b", 1), ("a", 1)] ∧
      "a".toList < "b".toList := by
  constructor
  · have hres : aggregateResults (fun _ => false) false
        [⟨"b", "u", "2024-01-01"⟩, ⟨"a", "u", "2024-01-01"⟩] =
        [("b", { total_appearances := 1, dates := ["2024-01-01"], first_seen := "2024-01-01", last_seen := "2024-01-01", date_counts := [("2024-01-01", 1)] }),
         ("a", { total_appearances := 1, dates := ["2024-01-01"], first_seen := "2024-01-01", last_seen := "2024-01-01", date_counts := [("2024-01-01", 1)] })] := by decide
    simp only [aggregate_yearly_stats, yearlyResults, hres]
    norm_num [mkYearlyItem, pySortDesc, pySortK, pyInsertK]
  · decide

end TrueTrend

